import Mathlib

/-!
Verification development for the ScoutFox query-resolution engine.

Text is modelled as `List Char` (JavaScript strings, with `.length` and
index arithmetic modelled in UTF-16 code units via `jsLen`; truncation of a
surrogate pair is approximated at character granularity, which no theorem
below depends on). JavaScript regular expressions are modelled by a small
backtracking matcher (`Matcher`) whose combinators reproduce the engine's
leftmost-match, ordered-alternation, greedy-with-backtracking semantics.
Case folding (`String.prototype.toLowerCase`, the `i` regex flag) is
modelled on ASCII. Fallible JavaScript code (a lookup `preserved[i]` that
can be `undefined` and then crash on `.toLowerCase()`) is modelled with
`Option`. Numbers used only as confidence scores are modelled as `Rat`;
timestamps as `Int`.
-/

namespace ScoutFox

/-! ### Character utilities (JavaScript semantics) -/

/-- The characters matched by JavaScript's `\s` (and trimmed by `trim()`). -/
def jsWs (c : Char) : Bool :=
  [9, 10, 11, 12, 13, 32, 160, 0x1680, 0x2000, 0x2001, 0x2002, 0x2003, 0x2004,
   0x2005, 0x2006, 0x2007, 0x2008, 0x2009, 0x200a, 0x2028, 0x2029, 0x202f,
   0x205f, 0x3000, 0xfeff].contains c.toNat

/-- ASCII case folding, the model of `toLowerCase` and the `i` regex flag. -/
def asciiLower (c : Char) : Char :=
  if 65 ≤ c.toNat ∧ c.toNat ≤ 90 then Char.ofNat (c.toNat + 32) else c

def asciiLetter (c : Char) : Bool :=
  (65 ≤ c.toNat && c.toNat ≤ 90) || (97 ≤ c.toNat && c.toNat ≤ 122)

def isDigitChar (c : Char) : Bool := 48 ≤ c.toNat && c.toNat ≤ 57

def asciiUpper (c : Char) : Bool := 65 ≤ c.toNat && c.toNat ≤ 90

/-- JavaScript's `\w`: ASCII letters, digits and underscore. -/
def wordChar (c : Char) : Bool := asciiLetter c || isDigitChar c || c = '_'

/-- UTF-16 code units contributed by one character (JS `.length` counts these). -/
def jsLenChar (c : Char) : Nat := if 0x10000 ≤ c.toNat then 2 else 1

/-- JavaScript string length (UTF-16 code units). -/
def jsLen (l : List Char) : Nat := (l.map jsLenChar).sum

/-- JavaScript `trim()`. -/
def jsTrim (l : List Char) : List Char :=
  ((l.dropWhile jsWs).reverse.dropWhile jsWs).reverse

def lowerAll (l : List Char) : List Char := l.map asciiLower

/-! ### Whitespace splitting and joining -/

/-- Accumulator-based splitter: the maximal whitespace-free runs of the input,
in order. `split(/\s+/)` in JavaScript additionally produces an empty leading
(or trailing) fragment when the string starts (ends) with whitespace; every
use below feeds the fragments through a filter that discards empty tokens, so
those edge fragments are irrelevant and are not produced here (where a
leading empty fragment is observable — `words[0]` in `extractBrandModel` —
it is modelled explicitly by `jsSplitHead`). -/
def splitWsAux : List Char → List Char → List (List Char)
  | [], acc => if acc = [] then [] else [acc.reverse]
  | c :: t, acc =>
    if jsWs c then
      (if acc = [] then splitWsAux t [] else acc.reverse :: splitWsAux t [])
    else splitWsAux t (c :: acc)

def splitWs (l : List Char) : List (List Char) := splitWsAux l []

/-- `Array.prototype.join(' ')`. -/
def joinSpace : List (List Char) → List Char
  | [] => []
  | [w] => w
  | w :: ws => w ++ ' ' :: joinSpace ws

/-- `replace(/\s+/g, ' ')`: each whitespace run becomes a single space. -/
def collapseWsAux : Bool → List Char → List Char
  | _, [] => []
  | inWs, c :: t =>
    if jsWs c then
      (if inWs then collapseWsAux true t else ' ' :: collapseWsAux true t)
    else c :: collapseWsAux false t

def collapseWs (l : List Char) : List Char := collapseWsAux false l

/-! ### Decimal rendering and parsing (for `__PRESERVE_i__` placeholders) -/

def digitChar : Nat → Char
  | 0 => '0' | 1 => '1' | 2 => '2' | 3 => '3' | 4 => '4'
  | 5 => '5' | 6 => '6' | 7 => '7' | 8 => '8' | 9 => '9'
  | _ => '?'

def natDigitsAux : Nat → Nat → List Char
  | 0, _ => []
  | fuel + 1, n =>
    if n < 10 then [digitChar n]
    else natDigitsAux fuel (n / 10) ++ [digitChar (n % 10)]

/-- Canonical decimal rendering of a natural (JS `${n}` for a small integer). -/
def natDigits (n : Nat) : List Char := natDigitsAux (n + 1) n

def digitVal (c : Char) : Nat := c.toNat - 48

/-- `parseInt(ds, 10)` on a digit string. -/
def parseDecimal (l : List Char) : Nat := l.foldl (fun a c => a * 10 + digitVal c) 0

/-! ### A backtracking regular-expression matcher

A `Matcher` is given the previous character of the subject (`none` at the
start, needed for `\b`), the rest of the subject, and a continuation; it
succeeds iff the regex engine's backtracking search would. Alternation is
ordered, repetition is greedy-with-backtracking, exactly as in JavaScript. -/

/-- A match result: the character just before the unconsumed rest, and the rest. -/
abbrev MRes := Option (Option Char × List Char)

abbrev Matcher := Option Char → List Char → (Option Char → List Char → MRes) → MRes

def pEmpty : Matcher := fun p l k => k p l

def pFail : Matcher := fun _ _ _ => none

def pChar (f : Char → Bool) : Matcher := fun _ l k =>
  match l with
  | [] => none
  | c :: t => if f c then k (some c) t else none

def pSeq (a b : Matcher) : Matcher := fun p l k => a p l (fun q m => b q m k)

def pAlt (a b : Matcher) : Matcher := fun p l k =>
  match a p l k with
  | some r => some r
  | none => b p l k

def pSeqs (ms : List Matcher) : Matcher := ms.foldr pSeq pEmpty

def pAlts (ms : List Matcher) : Matcher := ms.foldr pAlt pFail

/-- Greedy `f*`: consume as much as possible, backtracking into `k`. -/
def pStarAux (f : Char → Bool) (k : Option Char → List Char → MRes) :
    Option Char → List Char → MRes
  | p, [] => k p []
  | p, c :: t =>
    if f c then
      match pStarAux f k (some c) t with
      | some r => some r
      | none => k p (c :: t)
    else k p (c :: t)

def pStar (f : Char → Bool) : Matcher := fun p l k => pStarAux f k p l

/-- Greedy `f+`. -/
def pPlus (f : Char → Bool) : Matcher := pSeq (pChar f) (pStar f)

def pLitAux (k : Option Char → List Char → MRes) :
    List Char → Option Char → List Char → MRes
  | [], p, l => k p l
  | _ :: _, _, [] => none
  | pc :: ps, _, c :: t => if c = pc then pLitAux k ps (some c) t else none

/-- Case-sensitive literal. -/
def pLit (s : String) : Matcher := fun p l k => pLitAux k s.toList p l

def pLitCIAux (k : Option Char → List Char → MRes) :
    List Char → Option Char → List Char → MRes
  | [], p, l => k p l
  | _ :: _, _, [] => none
  | pc :: ps, _, c :: t => if asciiLower c = pc then pLitCIAux k ps (some c) t else none

/-- Case-insensitive literal (the pattern is given in lowercase). -/
def pLitCI (s : String) : Matcher := fun p l k => pLitCIAux k s.toList p l

/-- Case-insensitive literal given as a character list. -/
def pLitCIL (s : List Char) : Matcher := fun p l k => pLitCIAux k s p l

def atWordBoundary (p : Option Char) (l : List Char) : Bool :=
  let pw := match p with | some c => wordChar c | none => false
  let nw := match l with | c :: _ => wordChar c | [] => false
  pw != nw

/-- `\b`. -/
def pWB : Matcher := fun p l k => if atWordBoundary p l then k p l else none

/-- `$` (no multiline flag anywhere in the sources). -/
def pEnd : Matcher := fun p l k => match l with | [] => k p [] | _ => none

/-- `s?` for a literal, greedy. -/
def pOptCI (s : String) : Matcher := pAlt (pLitCI s) pEmpty

def runMatcher (m : Matcher) (p : Option Char) (l : List Char) : MRes :=
  m p l (fun q r => some (q, r))

/-- Global `replace` with a replacement computed from the matched text.
Scans left to right over the original subject (so `\b` sees original
neighbours), replacing non-overlapping matches. Fuel is the subject length;
an (impossible for the patterns used here) empty match falls through to a
one-character advance. -/
def replaceScanAux (m : Matcher) (repl : List Char → List Char) :
    Nat → Option Char → List Char → List Char
  | 0, _, l => l
  | _ + 1, _, [] => []
  | fuel + 1, p, c :: t =>
    match runMatcher m p (c :: t) with
    | some (q, r) =>
      if r.length < (c :: t).length then
        repl ((c :: t).take ((c :: t).length - r.length)) ++ replaceScanAux m repl fuel q r
      else c :: replaceScanAux m repl fuel (some c) t
    | none => c :: replaceScanAux m repl fuel (some c) t

def replaceAllM (m : Matcher) (repl : List Char → List Char) (l : List Char) : List Char :=
  replaceScanAux m repl l.length none l

/-- Non-global `replace`: only the leftmost match is replaced. -/
def replaceFirstScanAux (m : Matcher) (repl : List Char) :
    Nat → Option Char → List Char → List Char
  | 0, _, l => l
  | fuel + 1, p, l =>
    match runMatcher m p l with
    | some (_, r) => repl ++ r
    | none =>
      match l with
      | [] => []
      | c :: t => c :: replaceFirstScanAux m repl fuel (some c) t

def replaceFirstM (m : Matcher) (repl : List Char) (l : List Char) : List Char :=
  replaceFirstScanAux m repl (l.length + 1) none l

/-- `test`: does the pattern match anywhere? -/
def testScanAux (m : Matcher) : Nat → Option Char → List Char → Bool
  | 0, _, _ => false
  | fuel + 1, p, l =>
    match runMatcher m p l with
    | some _ => true
    | none =>
      match l with
      | [] => false
      | c :: t => testScanAux m fuel (some c) t

def testM (m : Matcher) (l : List Char) : Bool := testScanAux m (l.length + 1) none l

/-- `match` without `g` (or the first element of a `g` match): the text of the
leftmost match. -/
def findScanAux (m : Matcher) : Nat → Option Char → List Char → Option (List Char)
  | 0, _, _ => none
  | fuel + 1, p, l =>
    match runMatcher m p l with
    | some (_, r) => some (l.take (l.length - r.length))
    | none =>
      match l with
      | [] => none
      | c :: t => findScanAux m fuel (some c) t

def findFirstM (m : Matcher) (l : List Char) : Option (List Char) :=
  findScanAux m (l.length + 1) none l

/-- Literal global replace (`replace` with a string pattern appears nowhere,
but sequences of `replace(/&amp;/g, …)`-style fixed-text regexes are modelled
as literal replacement). -/
def replaceLitAux (pat repl : List Char) : Nat → List Char → List Char
  | 0, l => l
  | _ + 1, [] => []
  | fuel + 1, c :: t =>
    if pat ≠ [] ∧ pat.isPrefixOf (c :: t) then
      repl ++ replaceLitAux pat repl fuel ((c :: t).drop pat.length)
    else c :: replaceLitAux pat repl fuel t

def replaceLit (pat repl l : List Char) : List Char := replaceLitAux pat repl l.length l

/-- `indexOf`-style first occurrence: `hay = pre ++ needle ++ suf`. -/
def splitFirstOccurAux (needle : List Char) : Nat → List Char → Option (List Char × List Char)
  | 0, _ => none
  | fuel + 1, l =>
    if needle.isPrefixOf l then some ([], l.drop needle.length)
    else
      match l with
      | [] => none
      | c :: t => (splitFirstOccurAux needle fuel t).map (fun pr => (c :: pr.1, pr.2))

def splitFirstOccur (needle hay : List Char) : Option (List Char × List Char) :=
  splitFirstOccurAux needle (hay.length + 1) hay

/-! ### `src/shared/config.ts`: title normalization and query generation -/

/-- `MARKETING_WORDS` (the multi-word entries can never equal a single
whitespace-separated token, but are kept verbatim). -/
def MARKETING_WORDS : List (List Char) :=
  (["new", "latest", "2024", "2025", "2023", "2022", "2021",
    "with", "includes", "pack of", "set of", "bundle",
    "premium", "professional", "pro", "plus", "max", "ultra",
    "updated", "upgraded", "enhanced", "improved"].map String.toList)

/-- `SEPARATORS = /[-|—:•]/g` (hyphen, pipe, em dash, colon, bullet). -/
def isSeparatorChar (c : Char) : Bool := ['-', '|', '—', ':', '•'].contains c

/-- The character class `[^|—:•]` of `BRAND_PREFIX` and `VENDOR_SUFFIX`
(note: it does not exclude the hyphen). -/
def inBrandClass (c : Char) : Bool := !(['|', '—', ':', '•'].contains c)

def apos : Char := Char.ofNat 39

/-- The six HTML-entity decodes of `normalizeText`, applied in source order. -/
def decodeEntities (l : List Char) : List Char :=
  replaceLit "&nbsp;".toList [' ']
    (replaceLit "&#39;".toList [apos]
      (replaceLit "&quot;".toList ['"']
        (replaceLit "&gt;".toList ['>']
          (replaceLit "&lt;".toList ['<']
            (replaceLit "&amp;".toList ['&'] l)))))

/-- `normalized.replace(SEPARATORS, ' ')`. -/
def normalizeSeparators (l : List Char) : List Char :=
  l.map (fun c => if isSeparatorChar c then ' ' else c)

/-- `BRAND_PREFIX = /^by\s+[^|—:•]+/i`: anchored at the start, replaced by `''`. -/
def brandPrefixPat : Matcher := pSeqs [pLitCI "by", pPlus jsWs, pPlus inBrandClass]

def brandPrefixStrip (l : List Char) : List Char :=
  match runMatcher brandPrefixPat none l with
  | some (_, r) => r
  | none => l

/-- `VENDOR_SUFFIX = /\s+by\s+[^|—:•]+$/i`, replaced by `''` (non-global). -/
def vendorSuffixPat : Matcher :=
  pSeqs [pPlus jsWs, pLitCI "by", pPlus jsWs, pPlus inBrandClass, pEnd]

def vendorSuffixStrip (l : List Char) : List Char := replaceFirstM vendorSuffixPat [] l

/-- `REMOVABLE_PARENTHETICAL = /\(updated\)|\(upgraded\)|\(enhanced\)|\(new\)|\(latest\)/gi`. -/
def removableParenPat : Matcher :=
  pAlts [pLitCI "(updated)", pLitCI "(upgraded)", pLitCI "(enhanced)",
         pLitCI "(new)", pLitCI "(latest)"]

def removableParenStrip (l : List Char) : List Char :=
  replaceAllM removableParenPat (fun _ => []) l

/-- The unit alternation of `PRESERVE_PARENTHETICAL`, in source order. -/
def PRESERVE_UNITS : List String :=
  ["gb", "tb", "mb", "inch", "inches", "mm", "cm", "gen", "generation",
   "th", "nd", "rd", "st"]

/-- Case-insensitively strip a (lowercase) literal, returning the actual
consumed characters and the rest. -/
def stripCI : List Char → List Char → Option (List Char × List Char)
  | [], l => some ([], l)
  | _ :: _, [] => none
  | pc :: ps, c :: t =>
    if asciiLower c = pc then (stripCI ps t).map (fun pr => (c :: pr.1, pr.2)) else none

/-- Try each unit in order; a unit matches only when followed by `)`. This is
exactly the regex's ordered alternation with backtracking: an earlier unit
that is not followed by `)` (e.g. `inch` against `inches)`) fails at `\)`
and the engine moves to the next alternative. -/
def matchPreserveUnit (l : List Char) : List String → Option (List Char × List Char)
  | [] => none
  | u :: us =>
    match stripCI u.toList l with
    | some (a, rest) =>
      match rest with
      | ')' :: r => some (a, r)
      | _ => matchPreserveUnit l us
    | none => matchPreserveUnit l us

/-- One attempt of `PRESERVE_PARENTHETICAL = /\((\d+\s*(gb|tb|…|st))\)/gi` at
the current position, returning the matched text and the rest. The regex's
greedy `\d+` is forced to the maximal digit run (no unit starts with a
digit), and its greedy `\s*` to the maximal whitespace run (no unit starts
with whitespace), so no further backtracking can occur. -/
def matchPreserve : List Char → Option (List Char × List Char)
  | [] => none
  | c :: t =>
    if c = '(' then
      if t.takeWhile isDigitChar = [] then none
      else
        match matchPreserveUnit ((t.dropWhile isDigitChar).dropWhile jsWs) PRESERVE_UNITS with
        | some (u, r) =>
          some ('(' :: (t.takeWhile isDigitChar ++
            (t.dropWhile isDigitChar).takeWhile jsWs ++ u ++ [')']), r)
        | none => none
    else none

/-- `` ` __PRESERVE_${i}__ ` `` without its surrounding spaces. -/
def placeholderCore (i : Nat) : List Char :=
  "__PRESERVE_".toList ++ natDigits i ++ "__".toList

/-- The global `replace(PRESERVE_PARENTHETICAL, match => …)` pass: each match
is pushed onto `preserved` and replaced by `` ` __PRESERVE_${i}__ ` `` (with
the surrounding spaces of the source's template literal). -/
def preserveScanAux : Nat → List Char → List (List Char) → List Char × List (List Char)
  | 0, l, acc => (l, acc)
  | _ + 1, [], acc => ([], acc)
  | fuel + 1, c :: t, acc =>
    match matchPreserve (c :: t) with
    | some (matched, rest) =>
      (' ' :: (placeholderCore acc.length ++
          ' ' :: (preserveScanAux fuel rest (acc ++ [matched])).1),
       (preserveScanAux fuel rest (acc ++ [matched])).2)
    | none =>
      (c :: (preserveScanAux fuel t acc).1, (preserveScanAux fuel t acc).2)

def preserveScan (l : List Char) : List Char × List (List Char) :=
  preserveScanAux l.length l []

/-- `/^20[0-9]{2}$/`. -/
def isYearToken (w : List Char) : Bool :=
  match w with
  | ['2', '0', a, b] => isDigitChar a && isDigitChar b
  | _ => false

/-- The token filter of `normalizeText` (empty/short, marketing word, bare
2020s year). -/
def tokenKeep (w : List Char) : Bool :=
  if w = [] || jsLen w < 2 then false
  else if MARKETING_WORDS.contains w then false
  else if isYearToken w then false
  else true

/-- `/^__preserve_(\d+)__$/` on an (already lowercased) token. -/
def parsePlaceholder (w : List Char) : Option Nat :=
  if "__preserve_".toList.isPrefixOf w then
    let t := w.drop 11
    let ds := t.takeWhile isDigitChar
    if ds ≠ [] ∧ t.dropWhile isDigitChar = "__".toList then some (parseDecimal ds)
    else none
  else none

/-- The restore pass: `preserved[i]` is `undefined` when `i` is out of range
and the subsequent `.toLowerCase()` throws — modelled by `none`. -/
def restoreWord (preserved : List (List Char)) (w : List Char) : Option (List Char) :=
  match parsePlaceholder w with
  | some i => (preserved.get? i).map lowerAll
  | none => some w

/-- The `words.forEach` restore loop over the whole token list, propagating
the out-of-range crash. -/
def restoreAll (preserved : List (List Char)) : List (List Char) → Option (List (List Char))
  | [] => some []
  | w :: ws =>
    match restoreWord preserved w, restoreAll preserved ws with
    | some r, some rs => some (r :: rs)
    | _, _ => none

/-- `normalizeText` up to and including the preserve pass (steps 1–5 of the
source function), exposing the `preserved` array. -/
def preserveStage (l : List Char) : List Char × List (List Char) :=
  preserveScan (removableParenStrip (vendorSuffixStrip (brandPrefixStrip
    (normalizeSeparators (decodeEntities l)))))

/-- `normalizeText` of `src/shared/config.ts`. -/
def normalizeText (l : List Char) : Option (List Char) :=
  let st := preserveStage l
  let words := (splitWs st.1).map (fun w => lowerAll (jsTrim w))
  let kept := words.filter tokenKeep
  (restoreAll st.2 kept).map (fun ws => jsTrim (joinSpace ws))

/-! #### `subtitleAddsValue`, `extractBrandModel` -/

/-- `/\b([a-z]+\d+|\d+[a-z]+|[a-z]+\d+[a-z]+)\b/i`. -/
def modelNumberPat : Matcher :=
  pSeqs [pWB,
    pAlts [pSeqs [pPlus asciiLetter, pPlus isDigitChar],
           pSeqs [pPlus isDigitChar, pPlus asciiLetter],
           pSeqs [pPlus asciiLetter, pPlus isDigitChar, pPlus asciiLetter]],
    pWB]

/-- `/\b(\d+\s*(gb|tb|mb|inch|inches|mm|cm))\b/i`. -/
def sizePat : Matcher :=
  pSeqs [pWB, pPlus isDigitChar, pStar jsWs,
    pAlts (["gb", "tb", "mb", "inch", "inches", "mm", "cm"].map pLitCI), pWB]

/-- `/\b(noise\s*cancelling|wireless|bluetooth|4k|8k|oled|led|hdr)\b/i`. -/
def techTermPat : Matcher :=
  pSeqs [pWB,
    pAlts [pSeqs [pLitCI "noise", pStar jsWs, pLitCI "cancelling"],
           pLitCI "wireless", pLitCI "bluetooth", pLitCI "4k", pLitCI "8k",
           pLitCI "oled", pLitCI "led", pLitCI "hdr"],
    pWB]

/-- `subtitleAddsValue` (the three regex tests run on the raw subtitle; the
length test on its normalization, whose computation can crash — `Option`). -/
def subtitleAddsValue (l : List Char) : Option Bool :=
  (normalizeText l).map (fun n =>
    testM modelNumberPat l || testM sizePat l || testM techTermPat l
      || decide (10 < jsLen n))

/-- `words[0]` of `text.split(/\s+/)`, with JavaScript's leading empty
fragment when the text starts with whitespace. -/
def jsSplitHead (l : List Char) : List Char :=
  match l with
  | [] => []
  | c :: _ => if jsWs c then [] else l.takeWhile (fun x => !jsWs x)

/-- `/\b([a-z]+\d+[a-z]*|\d+[a-z]+)\b/i` of `extractBrandModel`. -/
def extractModelPat : Matcher :=
  pSeqs [pWB,
    pAlts [pSeqs [pPlus asciiLetter, pPlus isDigitChar, pStar asciiLetter],
           pSeqs [pPlus isDigitChar, pPlus asciiLetter]],
    pWB]

/-- `extractBrandModel`: `(brand?, model?)`. -/
def extractBrandModel (l : List Char) : Option (List Char) × Option (List Char) :=
  let w := jsSplitHead l
  ((if w = [] then none else some w), findFirstM extractModelPat l)

/-! #### `normalizeAmazonTitleToSearch`, `generateSearchQueries` -/

/-- `substring(0, n)` in UTF-16 code units (a split surrogate pair is
approximated by stopping before the character). -/
def takeCU (n : Nat) : List Char → List Char
  | [] => []
  | c :: t => if jsLenChar c ≤ n then c :: takeCU (n - jsLenChar c) t else []

/-- `lastIndexOf(' ')` as a UTF-16 code-unit index. -/
def lastSpaceIdxAux : List Char → Nat → Option Nat → Option Nat
  | [], _, best => best
  | c :: t, pos, best =>
    lastSpaceIdxAux t (pos + jsLenChar c) (if c = ' ' then some pos else best)

def lastSpaceIdx (l : List Char) : Option Nat := lastSpaceIdxAux l 0 none

/-- The 120-character cap of `normalizeAmazonTitleToSearch`, cutting at the
last space when that falls after index 80 (`lastIndexOf(' ')` returns `-1`
when there is no space, and `-1 > 80` is false — the `none` branch). -/
def truncate120 (l : List Char) : List Char :=
  if 120 < jsLen l then
    let t := jsTrim (takeCU 120 l)
    match lastSpaceIdx t with
    | some i => if 80 < i then takeCU i t else t
    | none => t
  else l

/-- `normalizeAmazonTitleToSearch` of `src/shared/config.ts`. -/
def normalizeAmazonTitleToSearch (title : List Char) (subtitle : Option (List Char)) :
    Option (List Char) :=
  if jsTrim title = [] then some []
  else
    match normalizeText title with
    | none => none
    | some n =>
      let withSub : Option (List Char) :=
        match subtitle with
        | some st =>
          if jsTrim st = [] then some n
          else
            match subtitleAddsValue st with
            | none => none
            | some false => some n
            | some true =>
              match normalizeText st with
              | none => none
              | some ns => some (if ns = [] then n else n ++ ' ' :: ns)
        | none => some n
      withSub.map (fun m => truncate120 (jsTrim (collapseWs m)))

/-- `/\b(pro|plus|max|ultra)\b/gi` (test) and `/\b(pro|plus|max|ultra)\b/gi`
(global replace) of `generateSearchQueries`. -/
def proQualifierPat : Matcher :=
  pSeqs [pWB, pAlts [pLitCI "pro", pLitCI "plus", pLitCI "max", pLitCI "ultra"], pWB]

/-- `generateSearchQueries` of `src/shared/config.ts`. -/
def generateSearchQueries (title : List Char) (subtitle : Option (List Char)) :
    Option (List (List Char)) :=
  (normalizeAmazonTitleToSearch title subtitle).map (fun normalized =>
    if normalized = [] then []
    else
      let bm := extractBrandModel normalized
      let q12 := [normalized ++ " review".toList, normalized ++ " unboxing".toList]
      let q3 :=
        match bm.1, bm.2 with
        | some b, some m => [b ++ ' ' :: (m ++ " review".toList)]
        | _, _ => []
      let q4 := [normalized ++ " hands on".toList]
      let q5 :=
        if testM proQualifierPat normalized then
          let base := jsTrim (replaceAllM proQualifierPat (fun _ => []) normalized)
          if base ≠ [] ∧ base ≠ normalized then [normalized ++ " vs ".toList ++ base]
          else []
        else []
      (q12 ++ q3 ++ q4 ++ q5).take 5)

/-! ### `src/shared/types.ts`: data model -/

structure VideoResult where
  videoId : List Char
  title : List Char
  channelTitle : List Char
  thumbnailUrl : List Char
  viewCount : Nat
  likeCount : Option Nat
  publishedAt : List Char
deriving DecidableEq, Repr

structure CacheEntry where
  results : List VideoResult
  fetchedAt : Int
deriving DecidableEq, Repr

/-! ### `src/background/youtube.ts`: cache -/

/-- `getCacheKey`: `` `youtube_search_${query.toLowerCase().trim()}` ``. -/
def getCacheKey (query : List Char) : List Char :=
  "youtube_search_".toList ++ jsTrim (lowerAll query)

/-- The durable `chrome.storage.local` map, restricted to cache entries. -/
abbrev CacheStore := List Char → Option CacheEntry

/-- `getCachedResults`: the returned results (or `none`) and the store after
the lazy eviction of an expired entry. -/
def getCachedResults (store : CacheStore) (now : Int) (query : List Char) (ttl : Int) :
    Option (List VideoResult) × CacheStore :=
  let key := getCacheKey query
  match store key with
  | some entry =>
    if now - entry.fetchedAt < ttl then (some entry.results, store)
    else (none, fun k => if k = key then none else store k)
  | none => (none, store)

/-- `setCachedResults`: unconditional write-through. -/
def setCachedResults (store : CacheStore) (now : Int) (query : List Char)
    (results : List VideoResult) : CacheStore :=
  fun k => if k = getCacheKey query then some ⟨results, now⟩ else store k

/-! ### `src/background/youtube.ts`: bounded retry with exponential backoff

The outcome of one attempt (one `fetch` + `response.json()` + status check)
is given by an oracle `attempts : Nat → FetchOutcome α`; network
nondeterminism lives in the oracle, the loop itself is the source's. -/

/-- One attempt's outcome: parsed success value, a non-ok HTTP status, or a
thrown exception (e.g. malformed JSON) with its message. -/
inductive FetchOutcome (α : Type) where
  | ok (v : α)
  | http (status : Nat)
  | exn (msg : List Char)
deriving DecidableEq

inductive RetryResult (α : Type) where
  | ok (v : α)
  | apiError (status : Nat)
  | raised (msg : List Char)
  | exhausted (msg : List Char)
deriving DecidableEq

/-- `String.prototype.includes`. -/
def containsSubstr (needle hay : List Char) : Bool := (splitFirstOccur needle hay).isSome

/-- The shared `while (retries > 0)` loop of `fetchVideoStatistics` and
`searchYouTubeAPI`: statuses 429/403 (and thrown errors whose message
contains `rate limit`) sleep `backoff` ms, double the backoff and retry;
other statuses and errors propagate immediately; an exhausted budget throws
`exhaustMsg`. Returns the result together with the list of sleeps performed.
(The `throw` guarded by `if (retries > 0)` inside the loop is dead code:
the guard is always true there.) -/
def retryLoopAux (attempt : Nat → FetchOutcome α) (exhaustMsg : List Char) :
    Nat → Nat → Nat → List Nat → RetryResult α × List Nat
  | 0, _, _, sleeps => (.exhausted exhaustMsg, sleeps)
  | retries + 1, i, backoff, sleeps =>
    match attempt i with
    | .ok v => (.ok v, sleeps)
    | .http s =>
      if s = 429 ∨ s = 403 then
        retryLoopAux attempt exhaustMsg retries (i + 1) (backoff * 2) (sleeps ++ [backoff])
      else (.apiError s, sleeps)
    | .exn m =>
      if containsSubstr "rate limit".toList m then
        retryLoopAux attempt exhaustMsg retries (i + 1) (backoff * 2) (sleeps ++ [backoff])
      else (.raised m, sleeps)

/-- Statistics per video id, as produced by `fetchVideoStatistics`. -/
structure VideoStats where
  viewCount : Nat
  likeCount : Option Nat
deriving DecidableEq

/-- The retry loop of `fetchVideoStatistics` (`retries = 3`,
`backoffMs = 1000`). -/
def fetchVideoStatistics (attempts : Nat → FetchOutcome (List (List Char × VideoStats))) :
    RetryResult (List (List Char × VideoStats)) × List Nat :=
  retryLoopAux attempts "Failed to fetch video statistics after retries".toList 3 0 1000 []

/-- The retry loop of `searchYouTubeAPI` (`retries = 3`, `backoffMs = 1000`). -/
def searchYouTubeAPI (attempts : Nat → FetchOutcome (List VideoResult)) :
    RetryResult (List VideoResult) × List Nat :=
  retryLoopAux attempts "Failed to search YouTube after retries".toList 3 0 1000 []

/-! ### `src/background/youtube.ts`: `searchYouTubeForProduct` -/

/-- A video of the backend's legacy `videos` array. Absent string fields are
the empty list (JS `undefined` and `''` are both falsy where these are read). -/
structure LegacyVideo where
  videoId : List Char
  title : List Char
  channelName : List Char
  channelTitle : List Char
  thumbnailUrl : List Char
  viewCount : Option Nat
  likeCount : Option Nat
  publishedAt : List Char
deriving DecidableEq

/-- `v.channelName || v.channelTitle` and `v.viewCount || 0`. -/
def convertLegacyVideo (v : LegacyVideo) : VideoResult :=
  { videoId := v.videoId
    title := v.title
    channelTitle := if v.channelName = [] then v.channelTitle else v.channelName
    thumbnailUrl := v.thumbnailUrl
    viewCount := v.viewCount.getD 0
    likeCount := v.likeCount
    publishedAt := v.publishedAt }

/-- A parsed `2xx` body of `POST /api/search-youtube`. `results`/`videos` are
`some` exactly when present as arrays. -/
structure BackendBody where
  success : Bool
  results : Option (List VideoResult)
  videos : Option (List LegacyVideo)
  error : Option (List Char)
deriving DecidableEq

/-- The observable outcome of the backend call: an HTTP response with a
parsed body, a non-ok status with its error text, a network failure
(`TypeError: Failed to fetch`) or the 25 s abort. -/
inductive BackendOutcome where
  | httpOk (body : BackendBody)
  | httpError (status : Nat) (text : List Char)
  | netError
  | timeout
deriving DecidableEq

/-- What the backend branch of `searchYouTubeForProduct` returns, when it
returns: `data.success && data.results` wins, then a legacy `videos` array
is converted. Every other outcome — the unsuccessful-body path (quota or
not), a non-ok status, a network error, a timeout — is caught inside the
branch and falls through to the local search (`none` here); quota only
changes the console logging. -/
def backendReturns : BackendOutcome → Option (List VideoResult)
  | .httpOk body =>
    match (if body.success then body.results else none) with
    | some rs => some rs
    | none =>
      match body.videos with
      | some vs => some (vs.map convertLegacyVideo)
      | none => none
  | .httpError _ _ => none
  | .netError => none
  | .timeout => none

structure ChromeStorage where
  youtubeApiKey : Option (List Char)
  useOwnYouTubeKey : Bool
deriving DecidableEq

/-- JS truthiness of a possibly-absent string. -/
def truthyStr : Option (List Char) → Bool
  | some s => !s.isEmpty
  | none => false

/-- `getApiKey().catch(() => null)`: the in-memory `config.apiKey`, else the
stored `youtubeApiKey`, else `null` (the throw is caught). -/
def getApiKeyOrNull (configApiKey : List Char) (storage : ChromeStorage) :
    Option (List Char) :=
  if !configApiKey.isEmpty then some configApiKey
  else
    match storage.youtubeApiKey with
    | some k => if !k.isEmpty then some k else none
    | none => none

def ERR_OWN_KEY : List Char :=
  "Your YouTube API key is not configured. Please add it in settings.".toList

def ERR_NO_BACKEND_NO_KEY : List Char :=
  "Backend service unavailable and no API keys configured. Please check your connection or configure API keys in settings.".toList

/-- The `for (const query of queries)` loop: per-query errors are caught and
logged, the first query with a non-empty result wins, and exhaustion returns
`[]`. (`search` stands for `searchYouTube`, the cache-wrapped API search;
the surrounding `try/catch` of the source is unreachable because every
error is already swallowed inside the loop.) -/
def tryQueriesLoop (search : List Char → Except (List Char) (List VideoResult)) :
    List (List Char) → List VideoResult
  | [] => []
  | q :: rest =>
    match search q with
    | .ok rs => if rs.length ≠ 0 then rs else tryQueriesLoop search rest
    | .error _ => tryQueriesLoop search rest

/-- `searchYouTubeForProduct` of `src/background/youtube.ts`. The
environment is explicit: the in-memory `config.apiKey`, the
`chrome.storage.local` keys read at the top, the backend call's outcome, the
AI title rewrite's outcome (`none` = the rewrite threw and the raw title is
kept), and the local search. The outer `Option` is the `normalizeText`
placeholder crash. -/
def searchYouTubeForProduct (configApiKey : List Char) (storage : ChromeStorage)
    (backend : BackendOutcome) (aiRewrite : Option (List Char))
    (search : List Char → Except (List Char) (List VideoResult))
    (title : List Char) (subtitle : Option (List Char)) (useAI : Bool) :
    Option (Except (List Char) (List VideoResult)) :=
  let useOwnKey := storage.useOwnYouTubeKey && truthyStr storage.youtubeApiKey
  match (if useOwnKey then none else backendReturns backend) with
  | some rs => some (.ok rs)
  | none =>
    let searchTitle := if useAI then (match aiRewrite with | some t => t | none => title) else title
    let queriesOpt : Option (List (List Char)) :=
      if useAI then
        some [searchTitle ++ " review".toList, searchTitle ++ " unboxing".toList,
              searchTitle ++ " hands on".toList]
      else generateSearchQueries title subtitle
    match queriesOpt with
    | none => none
    | some queries =>
      if queries = [] then some (.ok [])
      else
        let apiKey : Option (List Char) :=
          if useOwnKey then storage.youtubeApiKey else getApiKeyOrNull configApiKey storage
        if truthyStr apiKey then some (.ok (tryQueriesLoop search queries))
        else some (.error (if useOwnKey then ERR_OWN_KEY else ERR_NO_BACKEND_NO_KEY))

/-! ### `src/shared/llmExtractProduct.ts`: `extractProductsWithLLM`

The function is modelled from the parsed JSON body on; the earlier
`!response.ok` and network/abort throws happen before any shape handling.
JS numbers used as confidence scores are modelled as `Rat`. -/

structure RawProduct where
  productName : List Char
  confidence : Rat
  rationale : Option (List Char)
deriving DecidableEq

/-- A parsed response body: `products` is `some` exactly when present as an
array; `productName`/`confidence` are `some` when present as a string/number. -/
structure LLMResponse where
  products : Option (List RawProduct)
  productName : Option (List Char)
  confidence : Option Rat
  rationale : Option (List Char)
deriving DecidableEq

/-- `p => p.confidence >= 0.5 && p.productName`. -/
def confidenceFilter (p : RawProduct) : Bool :=
  decide ((1 : Rat) / 2 ≤ p.confidence) && !p.productName.isEmpty

def ERR_INVALID_LLM : List Char :=
  "Invalid response structure from LLM - expected products array or productName".toList

/-- The shape-dispatch and filter of `extractProductsWithLLM`:
`result.products && Array.isArray(result.products)` first, then the legacy
`result.productName && typeof result.confidence === 'number'` (a present but
empty `productName` is falsy), else the typed validation error. -/
def extractProductsWithLLM (r : LLMResponse) : Except (List Char) (List RawProduct) :=
  match r.products with
  | some ps => .ok (ps.filter confidenceFilter)
  | none =>
    match r.productName, r.confidence with
    | some n, some c =>
      if n.isEmpty then .error ERR_INVALID_LLM
      else .ok ([⟨n, c, r.rationale⟩].filter confidenceFilter)
    | _, _ => .error ERR_INVALID_LLM

/-! ### `src/shared/regexFallbackNormalize.ts`: `normalizeYouTubeTextFallback` -/

/-- The five emoji/symbol ranges removed first. -/
def inEmojiRanges (c : Char) : Bool :=
  (0x1F600 ≤ c.toNat && c.toNat ≤ 0x1F64F) ||
  (0x1F300 ≤ c.toNat && c.toNat ≤ 0x1F5FF) ||
  (0x1F680 ≤ c.toNat && c.toNat ≤ 0x1F6FF) ||
  (0x2600 ≤ c.toNat && c.toNat ≤ 0x26FF) ||
  (0x2700 ≤ c.toNat && c.toNat ≤ 0x27BF)

/-- The class kept by `replace(/[^\w\s\-.,()]/g, '')`. -/
def keepBasicChar (c : Char) : Bool :=
  wordChar c || jsWs c || ['-', '.', ',', '(', ')'].contains c

/-- `(months?|weeks?|days?|years?)`. -/
def timeUnitAlt : Matcher :=
  pAlts [pSeq (pLitCI "month") (pOptCI "s"), pSeq (pLitCI "week") (pOptCI "s"),
         pSeq (pLitCI "day") (pOptCI "s"), pSeq (pLitCI "year") (pOptCI "s")]

/-- `patternsToRemove`, in source order. -/
def patternsToRemove : List Matcher :=
  [pSeqs [pWB, pAlts [pLitCI "review", pLitCI "unboxing", pLitCI "unbox",
      pLitCI "opening", pLitCI "first look", pLitCI "hands on", pLitCI "hands-on"], pWB],
   pSeqs [pWB, pAlts [pLitCI "vs", pLitCI "versus", pLitCI "comparison",
      pLitCI "compared to", pLitCI "vs."], pWB],
   pSeqs [pWB, pLitCI "after ", pPlus isDigitChar, pStar jsWs, timeUnitAlt, pWB],
   pSeqs [pWB, pPlus isDigitChar, pStar jsWs, timeUnitAlt, pStar jsWs,
      pAlts [pLitCI "later", pLitCI "after", pLitCI "update"], pWB],
   pSeqs [pWB, pAlts [pLitCI "worth it", pLitCI "should you buy",
      pLitCIL ("don".toList ++ apos :: "t buy".toList), pLitCI "buy this",
      pLitCI "honest review"], pWB],
   pSeqs [pWB, pAlts [pLitCI "2024", pLitCI "2023", pLitCI "2022", pLitCI "2021",
      pLitCI "2020"], pStar jsWs, pAlts [pLitCI "review", pLitCI "update"], pWB],
   pSeqs [pWB, pAlts [pLitCI "you need to know", pLitCI "everything you need",
      pLitCI "before you buy"], pWB],
   pSeqs [pWB, pAlts [pLitCI "real talk", pLitCI "honest", pLitCI "brutally honest",
      pLitCI "spoiler"], pWB],
   pSeqs [pWB, pAlts [pSeq (pLitCI "part ") (pPlus isDigitChar),
      pSeq (pLitCI "episode ") (pPlus isDigitChar)], pWB],
   pSeqs [pWB, pAlts [pLitCI "ft.", pLitCI "featuring", pLitCI "with"], pWB]]

/-- `/\b([A-Z]{3,})\b/g` (case-sensitive). -/
def allCapsPat : Matcher :=
  pSeqs [pWB, pChar asciiUpper, pChar asciiUpper, pChar asciiUpper, pStar asciiUpper, pWB]

/-- `keepAcronyms` (the entries containing `-` or lowercase characters can
never equal an `[A-Z]{3,}` match; kept verbatim). -/
def keepAcronyms : List (List Char) :=
  (["USB", "HDMI", "USB-C", "USB-A", "SD", "SSD", "HDD", "RAM", "CPU", "GPU",
    "OLED", "LCD", "LED", "IPS", "HDR", "4K", "8K", "1080p", "720p", "WiFi",
    "Wi-Fi", "BT", "NFC", "GPS"].map String.toList)

/-- The ALL-CAPS callback: keep listed acronyms, else re-case to
`charAt(0) + slice(1).toLowerCase()` when longer than 2. -/
def recaseAllCaps (m : List Char) : List Char :=
  if keepAcronyms.contains m then m
  else if 2 < jsLen m then (match m with | c :: t => c :: lowerAll t | [] => [])
  else m

/-- The single entry of `brandPatterns`. -/
def brandPat : Matcher :=
  pSeqs [pWB,
    pAlts (["apple", "samsung", "sony", "google", "microsoft", "lg", "dell", "hp",
            "lenovo", "asus", "acer", "razer", "logitech", "bose", "jbl",
            "sennheiser", "anker", "belkin", "corsair", "hyperx"].map pLitCI),
    pWB]

/-- `replace(/[.,;:!?]+$/, '')`. -/
def stripTrailingPunct (l : List Char) : List Char :=
  (l.reverse.dropWhile (fun c => ['.', ',', ';', ':', '!', '?'].contains c)).reverse

/-- `a || b` on strings. -/
def jsOrStr (a b : List Char) : List Char := if a.isEmpty then b else a

/-- `normalizeYouTubeTextFallback` of `src/shared/regexFallbackNormalize.ts`. -/
def normalizeYouTubeTextFallback (title : List Char) (description : Option (List Char)) :
    List Char :=
  let text := match description with
    | some d => if d.isEmpty then title else title ++ ' ' :: d
    | none => title
  let text := text.filter (fun c => !inEmojiRanges c)
  let text := text.filter keepBasicChar
  let text := patternsToRemove.foldl (fun t m => replaceAllM m (fun _ => [' ']) t) text
  let text := jsTrim (collapseWs text)
  let text := replaceAllM allCapsPat recaseAllCaps text
  let productName :=
    match findFirstM brandPat text with
    | some bm =>
      match splitFirstOccur bm text with
      | some pr =>
        let afterBrand := jsTrim pr.2
        let words := (if afterBrand = [] then [([] : List Char)] else splitWs afterBrand).take 5
        bm ++ ' ' :: joinSpace words
      | none => text
    | none => text
  let productName := jsTrim (collapseWs productName)
  let productName := stripTrailingPunct productName
  let productName :=
    if 120 < jsLen productName then takeCU 117 productName ++ "...".toList
    else productName
  let productName :=
    if jsLen productName < 3 then
      takeCU 120 (jsTrim (collapseWs (title.filter keepBasicChar)))
    else productName
  jsOrStr productName "product".toList

/-- The shape of every entry of the `preserved` array: an opening paren, a
non-empty digit run, a whitespace run, a non-empty unit and a closing paren
(used by the verification below; not part of the source). -/
def PreservedShape (p : List Char) : Prop :=
  ∃ ds sp u, p = '(' :: (ds ++ sp ++ u ++ [')']) ∧ ds ≠ [] ∧
    (∀ c ∈ ds, isDigitChar c = true) ∧ (∀ c ∈ sp, jsWs c = true) ∧
    u ≠ [] ∧ (∀ c ∈ u, jsWs c = false)

/-! ## Supporting lemmas -/

theorem toNat_ofNat_add32 (n : Nat) (h1 : 65 ≤ n) (h2 : n ≤ 90) :
    (Char.ofNat (n + 32)).toNat = n + 32 := by
  have hv : (n + 32).isValidChar := by left; omega
  simp [Char.ofNat, hv, Char.ofNatAux, Char.toNat, UInt32.toNat]

/-- A character whose code is an ASCII letter is not JavaScript whitespace. -/
theorem jsWs_false_of (c : Char)
    (h : 65 ≤ c.toNat ∧ c.toNat ≤ 90 ∨ 97 ≤ c.toNat ∧ c.toNat ≤ 122) :
    jsWs c = false := by
  unfold jsWs
  simp only [List.elem_eq_mem, decide_eq_false_iff_not, List.mem_cons, List.not_mem_nil,
    or_false]
  omega

/-- ASCII case folding does not change whether a character is whitespace. -/
theorem jsWs_asciiLower (c : Char) : jsWs (asciiLower c) = jsWs c := by
  unfold asciiLower
  split
  · next h =>
    have ht := toNat_ofNat_add32 c.toNat h.1 h.2
    rw [jsWs_false_of _ (Or.inr ⟨by omega, by omega⟩), jsWs_false_of c (Or.inl h)]
  · rfl

/-- Lowercasing distributes over append. -/
theorem lowerAll_append (a b : List Char) : lowerAll (a ++ b) = lowerAll a ++ lowerAll b :=
  List.map_append ..

theorem head?_take5 {α : Type} (l : List α) : (l.take 5).head? = l.head? := by
  cases l <;> rfl

theorem dropWhile_append_of_all {p : Char → Bool} (a b : List Char)
    (h : ∀ c ∈ a, p c) : (a ++ b).dropWhile p = b.dropWhile p := by
  induction a with
  | nil => rfl
  | cons c t ih =>
    have hc : p c = true := h c (by simp)
    simp only [List.cons_append, List.dropWhile_cons, hc, if_true]
    exact ih (fun x hx => h x (by simp [hx]))

theorem dropWhile_append_of_ne_nil {p : Char → Bool} (a b : List Char)
    (h : a.dropWhile p ≠ []) : (a ++ b).dropWhile p = a.dropWhile p ++ b := by
  induction a with
  | nil => simp at h
  | cons c t ih =>
    by_cases hc : p c
    · simp only [List.dropWhile_cons, hc, if_true] at h ⊢
      simp only [List.cons_append, List.dropWhile_cons, hc, if_true]
      exact ih h
    · simp only [List.cons_append, List.dropWhile_cons, hc, Bool.false_eq_true, if_false]

/-- Trimming ignores an all-whitespace prefix and suffix. -/
theorem jsTrim_pad (pre q suf : List Char)
    (hpre : ∀ c ∈ pre, jsWs c) (hsuf : ∀ c ∈ suf, jsWs c) :
    jsTrim (pre ++ q ++ suf) = jsTrim q := by
  unfold jsTrim
  rw [List.append_assoc, dropWhile_append_of_all pre (q ++ suf) hpre]
  by_cases hq : q.dropWhile jsWs = []
  · have hqall : ∀ c ∈ q, jsWs c = true := List.dropWhile_eq_nil_iff.mp hq
    rw [dropWhile_append_of_all q suf hqall,
      List.dropWhile_eq_nil_iff.mpr (fun x hx => hsuf x hx), hq]
  · rw [dropWhile_append_of_ne_nil q suf hq]
    rw [List.reverse_append,
      dropWhile_append_of_all suf.reverse _ (fun x hx =>
        hsuf x (List.mem_reverse.mp hx))]

/-! ### Lemmas on whitespace splitting -/

theorem splitWsAux_all_ws (t : List Char) (h : ∀ c ∈ t, jsWs c = true) :
    ∀ acc, splitWsAux t acc = if acc = [] then [] else [acc.reverse] := by
  induction t with
  | nil => intro acc; rfl
  | cons c t ih =>
    intro acc
    have hc : jsWs c = true := h c (by simp)
    have ht : ∀ x ∈ t, jsWs x = true := fun x hx => h x (by simp [hx])
    by_cases hacc : acc = []
    · subst hacc
      simp only [splitWsAux, hc, if_true, ite_self]
      rw [ih ht []]
      rfl
    · simp only [splitWsAux, hc, if_true, if_neg hacc]
      rw [ih ht []]
      rfl

theorem splitWsAux_append_ws (a : List Char) (s : Char) (b : List Char)
    (hs : jsWs s = true) :
    ∀ acc, splitWsAux (a ++ s :: b) acc = splitWsAux a acc ++ splitWsAux b [] := by
  induction a with
  | nil =>
    intro acc
    by_cases hacc : acc = []
    · subst hacc
      simp only [List.nil_append, splitWsAux, hs, if_true, ite_self]
    · simp only [List.nil_append, splitWsAux, hs, if_true, if_neg hacc, List.cons_append]
  | cons c t ih =>
    intro acc
    by_cases hc : jsWs c
    · by_cases hacc : acc = []
      · subst hacc
        simp only [List.cons_append, splitWsAux, hc, if_true, ite_self]
        exact ih []
      · simp only [List.cons_append, splitWsAux, hc, if_true, if_neg hacc, List.append_eq]
        rw [ih []]
    · simp only [List.cons_append, splitWsAux, hc, Bool.false_eq_true, if_false]
      exact ih (c :: acc)

theorem splitWsAux_all_nonws (w : List Char) (h : ∀ c ∈ w, jsWs c = false) :
    ∀ acc, splitWsAux w acc =
      if acc.reverse ++ w = [] then [] else [acc.reverse ++ w] := by
  induction w with
  | nil =>
    intro acc
    by_cases hacc : acc = []
    · subst hacc; rfl
    · simp only [splitWsAux, if_neg hacc, List.append_nil]
      rw [if_neg (by simp [hacc])]
  | cons c t ih =>
    intro acc
    have hc : jsWs c = false := h c (by simp)
    have ht : ∀ x ∈ t, jsWs x = false := fun x hx => h x (by simp [hx])
    simp only [splitWsAux, hc, Bool.false_eq_true, if_false]
    rw [ih ht (c :: acc)]
    simp

theorem splitWs_all_nonws (w : List Char) (hw : w ≠ []) (h : ∀ c ∈ w, jsWs c = false) :
    splitWs w = [w] := by
  unfold splitWs
  rw [splitWsAux_all_nonws w h []]
  simp [hw]

theorem mem_splitWsAux (l : List Char) :
    ∀ acc w, (∀ c ∈ acc, jsWs c = false) → w ∈ splitWsAux l acc →
      w ≠ [] ∧ ∀ c ∈ w, jsWs c = false := by
  induction l with
  | nil =>
    intro acc w hacc hw
    simp only [splitWsAux] at hw
    split at hw
    · simp at hw
    · next hne =>
      simp only [List.mem_singleton] at hw
      subst hw
      exact ⟨by simpa using hne, fun c hc => hacc c (List.mem_reverse.mp hc)⟩
  | cons c t ih =>
    intro acc w hacc hw
    simp only [splitWsAux] at hw
    split at hw
    · split at hw
      · exact ih [] w (by simp) hw
      · next hne =>
        rcases List.mem_cons.mp hw with h1 | h2
        · subst h1
          exact ⟨by simpa using hne, fun x hx => hacc x (List.mem_reverse.mp hx)⟩
        · exact ih [] w (by simp) h2
    · next hc =>
      refine ih (c :: acc) w ?_ hw
      intro x hx
      rcases List.mem_cons.mp hx with h1 | h2
      · subst h1; simpa using hc
      · exact hacc x h2

theorem mem_splitWs (l w : List Char) (hw : w ∈ splitWs l) :
    w ≠ [] ∧ ∀ c ∈ w, jsWs c = false :=
  mem_splitWsAux l [] w (by simp) hw

theorem splitWs_wsLead (sp : List Char) (h : ∀ c ∈ sp, jsWs c = true) (b : List Char) :
    splitWs (sp ++ b) = splitWs b := by
  induction sp with
  | nil => rfl
  | cons c t ih =>
    have hc : jsWs c = true := h c (by simp)
    have ht : ∀ x ∈ t, jsWs x = true := fun x hx => h x (by simp [hx])
    simp only [List.cons_append]
    unfold splitWs
    simp only [splitWsAux, hc, if_true, ite_self]
    exact ih ht

theorem splitWs_ws_suffix (m t : List Char) (h : ∀ c ∈ t, jsWs c = true) :
    splitWs (m ++ t) = splitWs m := by
  unfold splitWs
  have aux : ∀ acc, splitWsAux (m ++ t) acc = splitWsAux m acc := by
    induction m with
    | nil =>
      intro acc
      simp only [List.nil_append]
      rw [splitWsAux_all_ws t h acc]
      rfl
    | cons c m' ih =>
      intro acc
      by_cases hc : jsWs c
      · simp only [List.cons_append, splitWsAux, hc, if_true, List.append_eq]
        rw [ih []]
      · simp only [List.cons_append, splitWsAux, hc, Bool.false_eq_true, if_false]
        exact ih (c :: acc)
  exact aux []

theorem splitWs_joinSpace (ws : List (List Char)) :
    splitWs (joinSpace ws) = (ws.map splitWs).flatten := by
  induction ws with
  | nil => rfl
  | cons w rest ih =>
    cases rest with
    | nil => simp [joinSpace]
    | cons w' rest' =>
      show splitWs (w ++ ' ' :: joinSpace (w' :: rest')) = _
      unfold splitWs
      rw [splitWsAux_append_ws w ' ' (joinSpace (w' :: rest')) (by decide) []]
      show splitWs w ++ splitWs (joinSpace (w' :: rest')) =
        ((w :: w' :: rest').map splitWs).flatten
      rw [ih]
      simp

theorem splitWs_dropWhileWs (l : List Char) : splitWs (l.dropWhile jsWs) = splitWs l := by
  induction l with
  | nil => rfl
  | cons c t ih =>
    by_cases hc : jsWs c
    · rw [List.dropWhile_cons_of_pos hc]
      rw [ih]
      unfold splitWs
      simp only [splitWsAux, hc, if_true, ite_self]
    · rw [List.dropWhile_cons_of_neg (by simp [hc])]

theorem splitWs_jsTrim (l : List Char) : splitWs (jsTrim l) = splitWs l := by
  unfold jsTrim
  set m := l.dropWhile jsWs with hm
  have hdecomp : m = ((m.reverse.dropWhile jsWs).reverse) ++ (m.reverse.takeWhile jsWs).reverse := by
    conv_lhs => rw [← List.reverse_reverse m, ← List.takeWhile_append_dropWhile (p := jsWs) (l := m.reverse)]
    rw [List.reverse_append]
  have hws : ∀ c ∈ (m.reverse.takeWhile jsWs).reverse, jsWs c = true := by
    intro c hc
    exact List.mem_takeWhile_imp (List.mem_reverse.mp hc)
  calc splitWs ((m.reverse.dropWhile jsWs).reverse)
      = splitWs ((m.reverse.dropWhile jsWs).reverse ++ (m.reverse.takeWhile jsWs).reverse) :=
        (splitWs_ws_suffix _ _ hws).symm
    _ = splitWs m := by rw [← hdecomp]
    _ = splitWs l := splitWs_dropWhileWs l

/-! ### Lemmas on infix survival -/

theorem infix_joinSpace_of_mem (w : List Char) (ws : List (List Char)) (h : w ∈ ws) :
    w <:+: joinSpace ws := by
  induction ws with
  | nil => simp at h
  | cons w' rest ih =>
    rcases List.mem_cons.mp h with h1 | h2
    · subst h1
      cases rest with
      | nil => exact List.infix_refl w
      | cons a b => exact ((w.prefix_append (' ' :: joinSpace (a :: b)))).isInfix
    · cases rest with
      | nil => simp at h2
      | cons a b =>
        have : joinSpace (a :: b) <:+ w' ++ ' ' :: joinSpace (a :: b) := by
          refine (List.suffix_cons ' ' _).trans ?_
          exact List.suffix_append w' _
        exact (ih h2).trans this.isInfix

theorem infix_dropWhileWs (x l : List Char) (hx : x <:+: l)
    (hhead : ∀ c, x.head? = some c → jsWs c = false) :
    x <:+: l.dropWhile jsWs := by
  induction l with
  | nil => simpa using hx
  | cons c t ih =>
    by_cases hc : jsWs c
    · rw [List.dropWhile_cons_of_pos hc]
      rcases List.infix_cons_iff.mp hx with hpre | hinf
      · cases x with
        | nil => exact List.nil_infix
        | cons a x' =>
          have hac := (List.cons_prefix_cons.mp hpre).1
          have hfa : jsWs a = false := hhead a rfl
          rw [hac, hc] at hfa
          exact absurd hfa (by simp)
      · exact ih hinf
    · rwa [List.dropWhile_cons_of_neg (by simp [hc])]

theorem infix_jsTrim (x l : List Char) (hx : x <:+: l)
    (hhead : ∀ c, x.head? = some c → jsWs c = false)
    (hlast : ∀ c, x.getLast? = some c → jsWs c = false) :
    x <:+: jsTrim l := by
  unfold jsTrim
  have h1 : x <:+: l.dropWhile jsWs := infix_dropWhileWs x l hx hhead
  have h2 : x.reverse <:+: (l.dropWhile jsWs).reverse := List.reverse_infix.mpr h1
  have h3 : x.reverse <:+: (l.dropWhile jsWs).reverse.dropWhile jsWs := by
    refine infix_dropWhileWs _ _ h2 ?_
    intro c hc
    rw [List.head?_reverse] at hc
    exact hlast c hc
  exact List.reverse_infix.mp (by simpa using h3)

/-! ### Lemmas on characters and digits -/

theorem jsWs_digit_false (c : Char) (h : isDigitChar c = true) : jsWs c = false := by
  unfold isDigitChar at h
  simp only [Bool.and_eq_true, decide_eq_true_eq] at h
  unfold jsWs
  simp only [List.elem_eq_mem, decide_eq_false_iff_not, List.mem_cons, List.not_mem_nil,
    or_false]
  omega

theorem asciiLower_digit (c : Char) (h : isDigitChar c = true) : asciiLower c = c := by
  unfold isDigitChar at h
  simp only [Bool.and_eq_true, decide_eq_true_eq] at h
  unfold asciiLower
  rw [if_neg (by omega)]

theorem length_le_jsLen (l : List Char) : l.length ≤ jsLen l := by
  induction l with
  | nil => simp [jsLen]
  | cons c t ih =>
    have : 1 ≤ jsLenChar c := by unfold jsLenChar; split <;> omega
    simp only [jsLen, List.map_cons, List.sum_cons, List.length_cons]
    simp only [jsLen] at ih
    omega

theorem lowerAll_length (l : List Char) : (lowerAll l).length = l.length :=
  List.length_map l asciiLower

theorem natDigitsAux_spec (fuel : Nat) :
    ∀ n, n < fuel →
      natDigitsAux fuel n ≠ [] ∧ (∀ c ∈ natDigitsAux fuel n, isDigitChar c = true) ∧
      parseDecimal (natDigitsAux fuel n) = n := by
  induction fuel with
  | zero => intro n h; omega
  | succ f ih =>
    intro n h
    by_cases h10 : n < 10
    · simp only [natDigitsAux, if_pos h10]
      refine ⟨by simp, ?_, ?_⟩
      · intro c hc
        simp only [List.mem_singleton] at hc
        subst hc
        interval_cases n <;> decide
      · unfold parseDecimal
        simp only [List.foldl_cons, List.foldl_nil]
        interval_cases n <;> decide
    · simp only [natDigitsAux, if_neg h10]
      have hrec := ih (n / 10) (by omega)
      have hmod : n % 10 < 10 := Nat.mod_lt _ (by omega)
      have hdig : isDigitChar (digitChar (n % 10)) = true := by
        set k := n % 10 with hk
        interval_cases k <;> decide
      have hval : digitVal (digitChar (n % 10)) = n % 10 := by
        set k := n % 10 with hk
        interval_cases k <;> decide
      refine ⟨by simp, ?_, ?_⟩
      · intro c hc
        rcases List.mem_append.mp hc with h1 | h2
        · exact hrec.2.1 c h1
        · simp only [List.mem_singleton] at h2
          subst h2
          exact hdig
      · unfold parseDecimal
        rw [List.foldl_append]
        simp only [List.foldl_cons, List.foldl_nil]
        have := hrec.2.2
        unfold parseDecimal at this
        rw [this, hval]
        omega

theorem natDigits_ne_nil (n : Nat) : natDigits n ≠ [] :=
  (natDigitsAux_spec (n + 1) n (by omega)).1

theorem natDigits_digits (n : Nat) : ∀ c ∈ natDigits n, isDigitChar c = true :=
  (natDigitsAux_spec (n + 1) n (by omega)).2.1

theorem parseDecimal_natDigits (n : Nat) : parseDecimal (natDigits n) = n :=
  (natDigitsAux_spec (n + 1) n (by omega)).2.2

theorem lowerAll_natDigits (n : Nat) : lowerAll (natDigits n) = natDigits n := by
  unfold lowerAll
  rw [List.map_congr_left (fun c hc => asciiLower_digit c (natDigits_digits n c hc))]
  exact List.map_id _

/-! ### Lemmas on the preserved-parenthetical machinery -/

theorem placeholderCore_nonws (i : Nat) : ∀ c ∈ placeholderCore i, jsWs c = false := by
  intro c hc
  unfold placeholderCore at hc
  rcases List.mem_append.mp hc with h1 | h2
  · rcases List.mem_append.mp h1 with h3 | h4
    · have hP : ∀ x ∈ "__PRESERVE_".toList, jsWs x = false := by decide
      exact hP c h3
    · exact jsWs_digit_false c (natDigits_digits i c h4)
  · have hP : ∀ x ∈ "__".toList, jsWs x = false := by decide
    exact hP c h2

theorem lowerAll_placeholderCore (i : Nat) :
    lowerAll (placeholderCore i) = "__preserve_".toList ++ natDigits i ++ "__".toList := by
  unfold placeholderCore lowerAll
  rw [List.map_append, List.map_append]
  rw [show List.map asciiLower "__PRESERVE_".toList = "__preserve_".toList from by decide]
  rw [show List.map asciiLower "__".toList = "__".toList from by decide]
  rw [show List.map asciiLower (natDigits i) = natDigits i from lowerAll_natDigits i]

theorem takeWhile_digits_append (a b : List Char) (ha : ∀ c ∈ a, isDigitChar c = true)
    (hb : b.takeWhile isDigitChar = []) :
    (a ++ b).takeWhile isDigitChar = a ∧ (a ++ b).dropWhile isDigitChar = b := by
  induction a with
  | nil =>
    simpa using hb
  | cons c t ih =>
    have hc : isDigitChar c = true := ha c (by simp)
    have ih' := ih (fun x hx => ha x (by simp [hx]))
    simp only [List.cons_append, List.takeWhile_cons, List.dropWhile_cons, hc, if_true,
      List.cons.injEq, true_and]
    exact ih'

theorem parsePlaceholder_roundtrip (i : Nat) :
    parsePlaceholder (lowerAll (placeholderCore i)) = some i := by
  rw [lowerAll_placeholderCore]
  unfold parsePlaceholder
  rw [if_pos (by
    rw [List.isPrefixOf_iff_prefix]
    exact ("__preserve_".toList.prefix_append _).trans (by rw [List.append_assoc]))]
  have hdrop : ("__preserve_".toList ++ natDigits i ++ "__".toList).drop 11 =
      natDigits i ++ "__".toList := by
    rw [List.append_assoc]
    rw [show (11 : Nat) = ("__preserve_".toList).length from by decide]
    exact List.drop_left _ _
  rw [hdrop]
  have htw := takeWhile_digits_append (natDigits i) "__".toList (natDigits_digits i)
    (by decide)
  show (if (natDigits i ++ "__".toList).takeWhile isDigitChar ≠ [] ∧
          (natDigits i ++ "__".toList).dropWhile isDigitChar = "__".toList
        then some (parseDecimal ((natDigits i ++ "__".toList).takeWhile isDigitChar))
        else none) = some i
  rw [htw.1, htw.2, if_pos ⟨natDigits_ne_nil i, rfl⟩, parseDecimal_natDigits]

theorem forall₂_mem_right {R : Char → Char → Prop} :
    ∀ {pat a : List Char}, List.Forall₂ R pat a → ∀ c ∈ a, ∃ pc ∈ pat, R pc c := by
  intro pat a h
  induction h with
  | nil => simp
  | cons hR _ ih =>
    intro c hc
    rcases List.mem_cons.mp hc with h1 | h2
    · subst h1
      exact ⟨_, by simp, hR⟩
    · obtain ⟨pc, hpc, hr⟩ := ih c h2
      exact ⟨pc, by simp [hpc], hr⟩

theorem stripCI_spec :
    ∀ (pat l a r : List Char), stripCI pat l = some (a, r) →
      l = a ++ r ∧ a.length = pat.length ∧
      List.Forall₂ (fun pc c => asciiLower c = pc) pat a := by
  intro pat
  induction pat with
  | nil =>
    intro l a r h
    simp only [stripCI, Option.some.injEq, Prod.mk.injEq] at h
    obtain ⟨h1, h2⟩ := h
    subst h1; subst h2
    exact ⟨rfl, rfl, List.Forall₂.nil⟩
  | cons pc ps ih =>
    intro l a r h
    cases l with
    | nil => simp [stripCI] at h
    | cons c t =>
      simp only [stripCI] at h
      split at h
      · next heq =>
        cases hs : stripCI ps t with
        | none => rw [hs] at h; simp at h
        | some pr =>
          rw [hs] at h
          obtain ⟨a', r'⟩ := pr
          simp only [Option.map_some', Option.some.injEq, Prod.mk.injEq] at h
          obtain ⟨h1, h2⟩ := h
          subst h2
          obtain ⟨hl, hlen, hf⟩ := ih t a' r' hs
          subst hl
          rw [← h1]
          exact ⟨rfl, by simp [hlen], List.Forall₂.cons heq hf⟩
      · simp at h

theorem matchPreserveUnit_spec :
    ∀ (us : List String), (∀ s ∈ us, s.toList ≠ [] ∧ ∀ pc ∈ s.toList, jsWs pc = false) →
      ∀ (l u r : List Char), matchPreserveUnit l us = some (u, r) →
        u ≠ [] ∧ (∀ c ∈ u, jsWs c = false) ∧ l = u ++ ')' :: r := by
  intro us
  induction us with
  | nil => intro _ l u r h; simp [matchPreserveUnit] at h
  | cons s us ih =>
    intro hus l u r h
    have hs0 := hus s (by simp)
    have hus' : ∀ x ∈ us, x.toList ≠ [] ∧ ∀ pc ∈ x.toList, jsWs pc = false :=
      fun x hx => hus x (by simp [hx])
    unfold matchPreserveUnit at h
    cases hs : stripCI s.toList l with
    | none =>
      rw [hs] at h
      exact ih hus' l u r h
    | some pr =>
      rw [hs] at h
      obtain ⟨a, rest⟩ := pr
      obtain ⟨hl, hlen, hf⟩ := stripCI_spec s.toList l a rest hs
      split at h
      · next a2 r2 heq =>
        injection heq with heq2
        have ha : a = a2 := congrArg Prod.fst heq2
        have hr : rest = r2 := congrArg Prod.snd heq2
        subst ha
        subst hr
        split at h
        · next r3 =>
          simp only [Option.some.injEq, Prod.mk.injEq] at h
          obtain ⟨h1, h2⟩ := h
          subst h1
          subst h2
          refine ⟨?_, ?_, hl⟩
          · intro ha
            subst ha
            simp only [List.length_nil] at hlen
            exact hs0.1 (List.eq_nil_of_length_eq_zero hlen.symm)
          · intro x hx
            obtain ⟨pc, hpc, hrx⟩ := forall₂_mem_right hf x hx
            rw [← jsWs_asciiLower x, hrx]
            exact hs0.2 pc hpc
        · exact ih hus' l u r h
      · exact ih hus' l u r h

theorem preserve_units_fact :
    ∀ s ∈ PRESERVE_UNITS, s.toList ≠ [] ∧ ∀ pc ∈ s.toList, jsWs pc = false := by
  decide

theorem matchPreserve_shape (l m r : List Char) (h : matchPreserve l = some (m, r)) :
    PreservedShape m := by
  cases l with
  | nil => simp [matchPreserve] at h
  | cons c t =>
    have heq : matchPreserve (c :: t) =
        if c = '(' then
          if t.takeWhile isDigitChar = [] then none
          else
            match matchPreserveUnit ((t.dropWhile isDigitChar).dropWhile jsWs)
                PRESERVE_UNITS with
            | some (u, r) =>
              some ('(' :: (t.takeWhile isDigitChar ++
                (t.dropWhile isDigitChar).takeWhile jsWs ++ u ++ [')']), r)
            | none => none
        else none := rfl
    rw [heq] at h
    split at h
    · split at h
      · exact absurd h (by simp)
      · next hds =>
        split at h
        · next u r2 hequ =>
          simp only [Option.some.injEq, Prod.mk.injEq] at h
          obtain ⟨h1, _⟩ := h
          obtain ⟨hu1, hu2, _⟩ := matchPreserveUnit_spec PRESERVE_UNITS preserve_units_fact
            _ u r2 hequ
          exact ⟨t.takeWhile isDigitChar, (t.dropWhile isDigitChar).takeWhile jsWs, u,
            h1.symm, hds, fun x hx => List.mem_takeWhile_imp hx,
            fun x hx => List.mem_takeWhile_imp hx, hu1, hu2⟩
        · exact absurd h (by simp)
    · exact absurd h (by simp)

theorem preserveScanAux_shape (fuel : Nat) :
    ∀ l acc, (∀ p ∈ acc, PreservedShape p) →
      ∀ p ∈ (preserveScanAux fuel l acc).2, PreservedShape p := by
  induction fuel with
  | zero => exact fun l acc hacc p hp => hacc p hp
  | succ f ih =>
    intro l acc hacc p hp
    cases l with
    | nil => exact hacc p hp
    | cons c t =>
      rcases hm : matchPreserve (c :: t) with _ | ⟨matched, rest⟩
      · have hp' : p ∈ (preserveScanAux f t acc).2 := by
          simpa [preserveScanAux, hm] using hp
        exact ih t acc hacc p hp'
      · have hp' : p ∈ (preserveScanAux f rest (acc ++ [matched])).2 := by
          simpa [preserveScanAux, hm] using hp
        refine ih rest (acc ++ [matched]) ?_ p hp'
        intro x hx
        rcases List.mem_append.mp hx with h1 | h2
        · exact hacc x h1
        · simp only [List.mem_singleton] at h2
          subst h2
          exact matchPreserve_shape (c :: t) x rest hm

theorem preserveScanAux_placeholder (fuel : Nat) :
    ∀ l acc i, acc.length ≤ i → i < ((preserveScanAux fuel l acc).2).length →
      ∃ a b, (preserveScanAux fuel l acc).1 = a ++ ' ' :: (placeholderCore i ++ ' ' :: b) := by
  induction fuel with
  | zero =>
    intro l acc i h1 h2
    simp only [preserveScanAux] at h2
    omega
  | succ f ih =>
    intro l acc i h1 h2
    cases l with
    | nil =>
      simp only [preserveScanAux] at h2
      omega
    | cons c t =>
      rcases hm : matchPreserve (c :: t) with _ | ⟨matched, rest⟩
      · have h2' : i < ((preserveScanAux f t acc).2).length := by
          simpa [preserveScanAux, hm] using h2
        obtain ⟨a, b, hab⟩ := ih t acc i h1 h2'
        refine ⟨c :: a, b, ?_⟩
        simp [preserveScanAux, hm, hab]
      · by_cases hi : i = acc.length
        · subst hi
          exact ⟨[], (preserveScanAux f rest (acc ++ [matched])).1, by
            simp [preserveScanAux, hm]⟩
        · have h1' : (acc ++ [matched]).length ≤ i := by
            simp only [List.length_append, List.length_singleton]
            omega
          have h2' : i < ((preserveScanAux f rest (acc ++ [matched])).2).length := by
            simpa [preserveScanAux, hm] using h2
          obtain ⟨a, b, hab⟩ := ih rest (acc ++ [matched]) i h1' h2'
          refine ⟨' ' :: (placeholderCore acc.length ++ ' ' :: a), b, ?_⟩
          simp [preserveScanAux, hm, hab, List.append_assoc]

/-! ### Lemmas on the restore pass and the token filter -/

theorem restoreAll_forward (preserved : List (List Char)) :
    ∀ l l', restoreAll preserved l = some l' →
      ∀ w ∈ l, ∀ y, restoreWord preserved w = some y → y ∈ l' := by
  intro l
  induction l with
  | nil => intro l' _ w hw; simp at hw
  | cons x xs ih =>
    intro l' h w hw y hy
    unfold restoreAll at h
    cases hx : restoreWord preserved x <;> rw [hx] at h
    · simp at h
    · cases hrest : restoreAll preserved xs <;> rw [hrest] at h
      · simp at h
      · next r rs =>
        simp only [Option.some.injEq] at h
        subst h
        rcases List.mem_cons.mp hw with h1 | h2
        · subst h1
          rw [hx] at hy
          simp only [Option.some.injEq] at hy
          subst hy
          simp
        · exact List.mem_cons_of_mem _ (ih rs hrest w h2 y hy)

theorem restoreAll_backward (preserved : List (List Char)) :
    ∀ l l', restoreAll preserved l = some l' →
      ∀ y ∈ l', ∃ w ∈ l, restoreWord preserved w = some y := by
  intro l
  induction l with
  | nil =>
    intro l' h y hy
    simp only [restoreAll, Option.some.injEq] at h
    subst h
    simp at hy
  | cons x xs ih =>
    intro l' h y hy
    unfold restoreAll at h
    cases hx : restoreWord preserved x <;> rw [hx] at h
    · simp at h
    · cases hrest : restoreAll preserved xs <;> rw [hrest] at h
      · simp at h
      · next r rs =>
        simp only [Option.some.injEq] at h
        subst h
        rcases List.mem_cons.mp hy with h1 | h2
        · subst h1
          exact ⟨x, by simp, hx⟩
        · obtain ⟨w, hw, hres⟩ := ih rs hrest y h2
          exact ⟨w, by simp [hw], hres⟩

theorem tokenKeep_props (w : List Char) (h : tokenKeep w = true) :
    MARKETING_WORDS.contains w = false ∧ isYearToken w = false ∧ w ≠ [] := by
  unfold tokenKeep at h
  split at h
  · simp at h
  · next hcond =>
    split at h
    · simp at h
    · next hmk =>
      split at h
      · simp at h
      · next hyr =>
        refine ⟨by simpa using hmk, by simpa using hyr, ?_⟩
        intro hw
        subst hw
        simp at hcond

theorem not_mem_marketing_of_contains_false (w : List Char)
    (h : MARKETING_WORDS.contains w = false) : w ∉ MARKETING_WORDS := by
  simpa [List.elem_eq_mem] using h

theorem marketing_head_facts :
    ∀ m ∈ MARKETING_WORDS, ¬ m.head? = some '(' ∧ ¬ m.head? = some '_' := by
  decide

theorem marketing_getLast_facts : ∀ m ∈ MARKETING_WORDS, ¬ m.getLast? = some ')' := by
  decide

theorem isYearToken_head (w : List Char) (h : isYearToken w = true) :
    w.head? = some '2' := by
  unfold isYearToken at h
  split at h
  · rfl
  · simp at h

theorem isYearToken_getLast (w : List Char) (h : isYearToken w = true) :
    ∃ d, w.getLast? = some d ∧ isDigitChar d = true := by
  unfold isYearToken at h
  split at h
  · next a b =>
    simp only [Bool.and_eq_true] at h
    exact ⟨b, rfl, h.2⟩
  · simp at h

theorem dropWhile_all_nonws (v : List Char) (hv : ∀ c ∈ v, jsWs c = false) :
    v.dropWhile jsWs = v := by
  cases v with
  | nil => rfl
  | cons c t => rw [List.dropWhile_cons_of_neg (by simp [hv c (by simp)])]

theorem jsTrim_all_nonws (w : List Char) (h : ∀ c ∈ w, jsWs c = false) : jsTrim w = w := by
  unfold jsTrim
  rw [dropWhile_all_nonws w h,
    dropWhile_all_nonws w.reverse (fun c hc => h c (List.mem_reverse.mp hc)),
    List.reverse_reverse]

theorem lowered_preserved_eq (ds sp u : List Char) :
    lowerAll ('(' :: (ds ++ sp ++ u ++ [')'])) =
      '(' :: (lowerAll ds ++ lowerAll sp ++ lowerAll u ++ [')']) := by
  unfold lowerAll
  simp only [List.map_cons, List.map_append, List.map_nil]
  rw [show asciiLower '(' = '(' from by decide, show asciiLower ')' = ')' from by decide]

/-- Every whitespace-separated token of a lowercased preserved parenthetical
begins with `(` or ends with `)`. -/
theorem loweredShape_tokens (ds sp u : List Char)
    (hdsdig : ∀ c ∈ ds, isDigitChar c = true)
    (hspws : ∀ c ∈ sp, jsWs c = true) (hunonws : ∀ c ∈ u, jsWs c = false) :
    ∀ w ∈ splitWs (lowerAll ('(' :: (ds ++ sp ++ u ++ [')']))),
      w.head? = some '(' ∨ w.getLast? = some ')' := by
  rw [lowered_preserved_eq]
  have hdsL : ∀ c ∈ lowerAll ds, jsWs c = false := by
    intro c hc
    obtain ⟨x, hx, rfl⟩ := List.mem_map.mp hc
    rw [asciiLower_digit x (hdsdig x hx)]
    exact jsWs_digit_false x (hdsdig x hx)
  have hspL : ∀ c ∈ lowerAll sp, jsWs c = true := by
    intro c hc
    obtain ⟨x, hx, rfl⟩ := List.mem_map.mp hc
    rw [jsWs_asciiLower]
    exact hspws x hx
  have huL : ∀ c ∈ lowerAll u, jsWs c = false := by
    intro c hc
    obtain ⟨x, hx, rfl⟩ := List.mem_map.mp hc
    rw [jsWs_asciiLower]
    exact hunonws x hx
  cases hsp : lowerAll sp with
  | nil =>
    intro w hw
    have hall : ∀ c ∈ '(' :: (lowerAll ds ++ [] ++ lowerAll u ++ [')']),
        jsWs c = false := by
      intro c hc
      rcases List.mem_cons.mp hc with h1 | h2
      · subst h1; decide
      · rcases List.mem_append.mp h2 with h3 | h4
        · rcases List.mem_append.mp h3 with h5 | h6
          · rcases List.mem_append.mp h5 with h7 | h8
            · exact hdsL c h7
            · simp at h8
          · exact huL c h6
        · simp only [List.mem_singleton] at h4
          subst h4; decide
    rw [splitWs_all_nonws _ (by simp) hall] at hw
    simp only [List.mem_singleton] at hw
    subst hw
    exact Or.inl rfl
  | cons s0 sp' =>
    have hs0 : jsWs s0 = true := hspL s0 (by simp [hsp])
    have hsp' : ∀ c ∈ sp', jsWs c = true := fun c hc => hspL c (by simp [hsp, hc])
    intro w hw
    have hre : '(' :: (lowerAll ds ++ s0 :: sp' ++ lowerAll u ++ [')']) =
        ('(' :: lowerAll ds) ++ s0 :: (sp' ++ (lowerAll u ++ [')'])) := by
      simp [List.append_assoc]
    rw [hre] at hw
    unfold splitWs at hw
    rw [splitWsAux_append_ws _ s0 _ hs0 []] at hw
    have h1 : splitWsAux ('(' :: lowerAll ds) [] = ['(' :: lowerAll ds] := by
      have : ∀ c ∈ '(' :: lowerAll ds, jsWs c = false := by
        intro c hc
        rcases List.mem_cons.mp hc with h1 | h2
        · subst h1; decide
        · exact hdsL c h2
      exact splitWs_all_nonws _ (by simp) this
    have h2 : splitWsAux (sp' ++ (lowerAll u ++ [')'])) [] = [lowerAll u ++ [')']] := by
      show splitWs (sp' ++ (lowerAll u ++ [')'])) = _
      rw [splitWs_wsLead sp' hsp']
      refine splitWs_all_nonws _ (by simp) ?_
      intro c hc
      rcases List.mem_append.mp hc with h3 | h4
      · exact huL c h3
      · simp only [List.mem_singleton] at h4
        subst h4; decide
    rw [h1, h2] at hw
    simp only [List.singleton_append, List.mem_cons, List.not_mem_nil, or_false] at hw
    rcases hw with hcase | hcase
    · subst hcase
      exact Or.inl rfl
    · subst hcase
      exact Or.inr (List.getLast?_concat _)

/-- C4: for every title on which `normalizeText` returns, no
whitespace-separated token of the output is a marketing word or a bare
2020s year token: surviving tokens passed the filter directly, and the
fragments of a restored preserved parenthetical keep their parentheses. -/
theorem C4_normalizeText_tokens (t out : List Char) (h : normalizeText t = some out) :
    ∀ w ∈ splitWs out, w ∉ MARKETING_WORDS ∧ isYearToken w = false := by
  simp only [normalizeText] at h
  cases hra : restoreAll (preserveStage t).2
      (((splitWs (preserveStage t).1).map (fun w => lowerAll (jsTrim w))).filter tokenKeep)
    with
  | none => rw [hra] at h; simp at h
  | some rs =>
    rw [hra] at h
    simp only [Option.map_some', Option.some.injEq] at h
    subst h
    intro w hw
    rw [splitWs_jsTrim, splitWs_joinSpace] at hw
    obtain ⟨s, hs, hws⟩ := List.mem_flatten.mp hw
    obtain ⟨r, hr, rfl⟩ := List.mem_map.mp hs
    obtain ⟨tk, htk_mem, htk_res⟩ := restoreAll_backward _ _ _ hra r hr
    have hkept := List.mem_filter.mp htk_mem
    have hprops := tokenKeep_props tk hkept.2
    obtain ⟨w0, hw0, rfl⟩ := List.mem_map.mp hkept.1
    obtain ⟨hw0ne, hw0nonws⟩ := mem_splitWs _ _ hw0
    have htrim : jsTrim w0 = w0 := jsTrim_all_nonws w0 hw0nonws
    unfold restoreWord at htk_res
    cases hpp : parsePlaceholder (lowerAll (jsTrim w0)) <;> simp only [hpp] at htk_res
    · simp only [Option.some.injEq] at htk_res
      subst htk_res
      have htknonws : ∀ c ∈ lowerAll (jsTrim w0), jsWs c = false := by
        rw [htrim]
        intro c hc
        obtain ⟨x, hx, rfl⟩ := List.mem_map.mp hc
        rw [jsWs_asciiLower]
        exact hw0nonws x hx
      rw [splitWs_all_nonws _ hprops.2.2 htknonws] at hws
      simp only [List.mem_singleton] at hws
      subst hws
      exact ⟨not_mem_marketing_of_contains_false _ hprops.1, hprops.2.1⟩
    · next i =>
      cases hgp : (preserveStage t).2.get? i <;> rw [hgp] at htk_res
      · simp at htk_res
      · next p =>
        simp only [Option.map_some', Option.some.injEq] at htk_res
        subst htk_res
        have hpmem : p ∈ (preserveStage t).2 := List.get?_mem hgp
        have hshape : PreservedShape p := by
          revert hpmem
          unfold preserveStage preserveScan
          exact fun hm => preserveScanAux_shape _ _ [] (by simp) p hm
        obtain ⟨ds, sp, u, hps, _, hdsdig, hspws, _, hunonws⟩ := hshape
        subst hps
        rcases loweredShape_tokens ds sp u hdsdig hspws hunonws w hws with hh | hh
        · constructor
          · intro hmem
            exact ((marketing_head_facts w hmem).1) hh
          · by_contra hyr
            simp only [Bool.not_eq_false] at hyr
            have := isYearToken_head w hyr
            rw [this] at hh
            simp at hh
        · constructor
          · intro hmem
            exact (marketing_getLast_facts w hmem) hh
          · by_contra hyr
            simp only [Bool.not_eq_false] at hyr
            obtain ⟨d, hd, hddig⟩ := isYearToken_getLast w hyr
            rw [hd] at hh
            simp only [Option.some.injEq] at hh
            subst hh
            exact absurd hddig (by decide)

/-- C4 witness: the property at a concrete title whose normalization keeps a
parenthetical and a model token. -/
theorem C4_witness :
    normalizeText "Sony WH-1000XM5 (2024)".toList = some "sony wh 1000xm5 (2024)".toList ∧
    (∀ w ∈ splitWs "sony wh 1000xm5 (2024)".toList,
      w ∉ MARKETING_WORDS ∧ isYearToken w = false) :=
  ⟨by decide, C4_normalizeText_tokens "Sony WH-1000XM5 (2024)".toList
    "sony wh 1000xm5 (2024)".toList (by decide)⟩

/-- C5 counterexample: the title `"by (256gb) x"` contains a parenthetical
matched by the preserve pattern, but its normalization is the empty string —
the `BRAND_PREFIX` strip (`/^by\s+[^|—:•]+/i`) runs earlier and deletes the
whole title, parenthetical included. -/
theorem C5_counterexample :
    (matchPreserve "(256gb) x".toList).map Prod.fst = some "(256gb)".toList ∧
    normalizeText "by (256gb) x".toList = some [] ∧
    ¬ (lowerAll "(256gb)".toList <:+: ([] : List Char)) := by
  refine ⟨by decide, by decide, by decide⟩

set_option maxHeartbeats 1000000 in
/-- C5 (amended): every parenthetical actually captured by the preserve pass
(the `preserved` array of `normalizeText`) appears verbatim, case-folded to
lowercase, as a substring of the normalized output whenever normalization
returns. (The original claim over raw titles fails when the earlier
brand-prefix/vendor-suffix strips delete the parenthetical, as in
`"by (256gb) x"`.) -/
theorem C5_amended (t p out : List Char)
    (hp : p ∈ (preserveStage t).2) (h : normalizeText t = some out) :
    lowerAll p <:+: out := by
  simp only [normalizeText] at h
  cases hra : restoreAll (preserveStage t).2
      (((splitWs (preserveStage t).1).map (fun w => lowerAll (jsTrim w))).filter tokenKeep)
    with
  | none => rw [hra] at h; simp at h
  | some rs =>
    rw [hra] at h
    simp only [Option.map_some', Option.some.injEq] at h
    subst h
    obtain ⟨i, hgp⟩ := List.get?_of_mem hp
    have hilt : i < ((preserveStage t).2).length := by
      by_contra hge
      rw [List.get?_eq_none.mpr (by omega)] at hgp
      exact Option.noConfusion hgp
    have hshape : PreservedShape p := by
      revert hp
      unfold preserveStage preserveScan
      exact fun hm => preserveScanAux_shape _ _ [] (by simp) p hm
    obtain ⟨a, b, hab⟩ : ∃ a b,
        (preserveStage t).1 = a ++ ' ' :: (placeholderCore i ++ ' ' :: b) := by
      revert hilt
      unfold preserveStage preserveScan
      exact fun hlt => preserveScanAux_placeholder _ _ [] i (by simp) hlt
    -- the placeholder token is one of the split tokens of the scanned text
    have hphmem : placeholderCore i ∈ splitWs (preserveStage t).1 := by
      rw [hab]
      have hsp1 : splitWs (a ++ ' ' :: (placeholderCore i ++ ' ' :: b)) =
          splitWs a ++ splitWs (placeholderCore i ++ ' ' :: b) := by
        unfold splitWs
        exact splitWsAux_append_ws a ' ' _ (by decide) []
      have hsp2 : splitWs (placeholderCore i ++ ' ' :: b) =
          splitWs (placeholderCore i) ++ splitWs b := by
        unfold splitWs
        exact splitWsAux_append_ws (placeholderCore i) ' ' b (by decide) []
      have hsp3 : splitWs (placeholderCore i) = [placeholderCore i] := by
        refine splitWs_all_nonws _ ?_ (placeholderCore_nonws i)
        unfold placeholderCore
        simp
      rw [hsp1, hsp2, hsp3]
      simp
    -- the lowercased placeholder token survives trimming, lowering and the filter
    have hnonws := placeholderCore_nonws i
    have htrim : jsTrim (placeholderCore i) = placeholderCore i :=
      jsTrim_all_nonws _ hnonws
    have htok : lowerAll (jsTrim (placeholderCore i)) = lowerAll (placeholderCore i) := by
      rw [htrim]
    have htkmem : lowerAll (placeholderCore i) ∈
        (splitWs (preserveStage t).1).map (fun w => lowerAll (jsTrim w)) := by
      refine List.mem_map.mpr ⟨placeholderCore i, hphmem, ?_⟩
      rw [htrim]
    have hkeep : tokenKeep (lowerAll (placeholderCore i)) = true := by
      unfold tokenKeep
      have hlen : 13 ≤ (lowerAll (placeholderCore i)).length := by
        rw [lowerAll_length]
        unfold placeholderCore
        simp
      have hjsl : ¬ jsLen (lowerAll (placeholderCore i)) < 2 := by
        have := length_le_jsLen (lowerAll (placeholderCore i))
        omega
      have hne : ¬ lowerAll (placeholderCore i) = [] := by
        intro hnil
        rw [hnil] at hlen
        simp at hlen
      rw [if_neg (by simp [hne, hjsl])]
      have hhead : (lowerAll (placeholderCore i)).head? = some '_' := by
        rw [lowerAll_placeholderCore]
        rfl
      rw [if_neg ?_, if_neg ?_]
      · intro hyr
        have := isYearToken_head _ hyr
        rw [this] at hhead
        simp at hhead
      · intro hcontains
        have hmem' : lowerAll (placeholderCore i) ∈ MARKETING_WORDS := by
          simpa [List.elem_eq_mem] using hcontains
        exact (marketing_head_facts _ hmem').2 hhead
    have hinkept : lowerAll (placeholderCore i) ∈
        ((splitWs (preserveStage t).1).map (fun w => lowerAll (jsTrim w))).filter tokenKeep :=
      List.mem_filter.mpr ⟨htkmem, hkeep⟩
    have hres : restoreWord (preserveStage t).2 (lowerAll (placeholderCore i)) =
        some (lowerAll p) := by
      unfold restoreWord
      simp only [parsePlaceholder_roundtrip i, hgp, Option.map_some']
    have hinrs : lowerAll p ∈ rs :=
      restoreAll_forward _ _ _ hra _ hinkept _ hres
    -- and is an infix of the joined, trimmed output
    obtain ⟨ds, sp, u, hps, _, _, _, _, _⟩ := hshape
    have hjoin : lowerAll p <:+: joinSpace rs := infix_joinSpace_of_mem _ rs hinrs
    refine infix_jsTrim _ _ hjoin ?_ ?_
    · intro c hc
      rw [hps, lowered_preserved_eq] at hc
      simp only [List.head?_cons, Option.some.injEq] at hc
      subst hc
      decide
    · intro c hc
      rw [hps, lowered_preserved_eq] at hc
      rw [show ('(' :: (lowerAll ds ++ lowerAll sp ++ lowerAll u ++ [')'])) =
          (('(' :: (lowerAll ds ++ lowerAll sp ++ lowerAll u)) ++ [')']) from by
            simp [List.append_assoc], List.getLast?_concat] at hc
      simp only [Option.some.injEq] at hc
      subst hc
      decide

/-- C5 witness: the amended claim at the concrete title
`"Echo (256GB) speaker"`, whose preserved array is `["(256GB)"]`. -/
theorem C5_witness :
    "(256GB)".toList ∈ (preserveStage "Echo (256GB) speaker".toList).2 ∧
    normalizeText "Echo (256GB) speaker".toList = some "echo (256gb) speaker".toList ∧
    lowerAll "(256GB)".toList <:+: "echo (256gb) speaker".toList :=
  ⟨by decide, by decide,
    C5_amended "Echo (256GB) speaker".toList "(256GB)".toList
      "echo (256gb) speaker".toList (by decide) (by decide)⟩

/-- C2 counterexample: on the scenario's exact title the normalized output
does contain `alexa` (and `release`, `smart speaker`, `charcoal`), because
none of those words is in `MARKETING_WORDS`; the claim's exclusion list is
wrong on the code. -/
theorem C2_counterexample :
    normalizeAmazonTitleToSearch
        ("Echo Dot (5th Gen, 2022 release) – Smart speaker with Alexa — Charcoal".toList) none
      = some ("echo dot (5th gen, release) smart speaker alexa charcoal".toList) ∧
    "alexa".toList <:+:
      "echo dot (5th gen, release) smart speaker alexa charcoal".toList := by
  constructor
  · decide
  · decide

/-- C2 (amended): the scenario's title normalizes to a string containing
`echo dot` and `5th gen` and excluding `2022`; but `release`,
`smart speaker`, `alexa` and `charcoal` are not marketing words and remain
in the output. -/
theorem C2_amended :
    normalizeAmazonTitleToSearch
        ("Echo Dot (5th Gen, 2022 release) – Smart speaker with Alexa — Charcoal".toList) none
      = some ("echo dot (5th gen, release) smart speaker alexa charcoal".toList) ∧
    ("echo dot".toList <:+: "echo dot (5th gen, release) smart speaker alexa charcoal".toList) ∧
    ("5th gen".toList <:+: "echo dot (5th gen, release) smart speaker alexa charcoal".toList) ∧
    ¬ ("2022".toList <:+: "echo dot (5th gen, release) smart speaker alexa charcoal".toList) ∧
    ("release".toList <:+: "echo dot (5th gen, release) smart speaker alexa charcoal".toList) ∧
    ("smart speaker".toList <:+: "echo dot (5th gen, release) smart speaker alexa charcoal".toList) ∧
    ("alexa".toList <:+: "echo dot (5th gen, release) smart speaker alexa charcoal".toList) ∧
    ("charcoal".toList <:+: "echo dot (5th gen, release) smart speaker alexa charcoal".toList) := by
  refine ⟨by decide, by decide, by decide, by decide, by decide, by decide, by decide, by decide⟩

/-- C3 counterexample: `"x"` is a non-empty title, but its normalization is
empty (single-character tokens are dropped), so `generateSearchQueries`
returns the empty list instead of the claimed 1–5 queries. -/
theorem C3_counterexample :
    generateSearchQueries ("x".toList) none = some [] ∧ "x".toList ≠ ([] : List Char) := by
  constructor
  · decide
  · decide

/-- C3 (amended): the empty title yields an empty query list; a title whose
normalized query is non-empty yields between 1 and 5 queries, the first of
which is the normalized query followed by `" review"`. (The original claim's
"any non-empty title" fails for titles that normalize to the empty string,
e.g. `"x"`.) -/
theorem C3_amended (title : List Char) (subtitle : Option (List Char)) (n : List Char)
    (h : normalizeAmazonTitleToSearch title subtitle = some n) :
    (title = [] → generateSearchQueries title subtitle = some []) ∧
    (n ≠ [] → ∃ qs, generateSearchQueries title subtitle = some qs ∧
       1 ≤ qs.length ∧ qs.length ≤ 5 ∧ qs.head? = some (n ++ " review".toList)) := by
  constructor
  · intro ht
    subst ht
    rfl
  · intro hn
    unfold generateSearchQueries
    rw [h]
    simp only [Option.map_some', if_neg hn]
    refine ⟨_, rfl, ?_, ?_, ?_⟩ <;>
      · rcases hbm : extractBrandModel n with ⟨b1, b2⟩
        cases b1 <;> cases b2 <;> split_ifs <;>
          simp_all [List.length_take, head?_take5]

/-- C3 witness: the amended claim at the concrete title `"Echo Dot"`. -/
theorem C3_witness :
    ("Echo Dot".toList = [] → generateSearchQueries "Echo Dot".toList none = some []) ∧
    ("echo dot".toList ≠ [] → ∃ qs, generateSearchQueries "Echo Dot".toList none = some qs ∧
       1 ≤ qs.length ∧ qs.length ≤ 5 ∧
       qs.head? = some ("echo dot".toList ++ " review".toList)) :=
  C3_amended "Echo Dot".toList none "echo dot".toList (by decide)

/-- C6: the shared retry loop of `searchYouTubeAPI` and
`fetchVideoStatistics` makes at most 3 attempts: a call rate-limited on all
three attempts fails with the exhaustion error (whatever a fourth attempt
would have returned — the result only depends on the first three attempts),
a call whose retryable failures stop after two attempts returns the third
attempt's success, and the sleeps performed before retries are 1000 ms,
then 2000 ms (then a final 4000 ms sleep after the third failure). -/
theorem C6_retry_policy (f : Nat → FetchOutcome (List VideoResult))
    (g : Nat → FetchOutcome (List (List Char × VideoStats))) :
    ((f 0 = .http 429 → f 1 = .http 429 → f 2 = .http 429 →
        searchYouTubeAPI f =
          (.exhausted "Failed to search YouTube after retries".toList, [1000, 2000, 4000])) ∧
     (g 0 = .http 429 → g 1 = .http 429 → g 2 = .http 429 →
        fetchVideoStatistics g =
          (.exhausted "Failed to fetch video statistics after retries".toList,
           [1000, 2000, 4000]))) ∧
    ((∀ v, f 0 = .http 429 → f 1 = .http 403 → f 2 = .ok v →
        searchYouTubeAPI f = (.ok v, [1000, 2000])) ∧
     (∀ v, g 0 = .http 429 → g 1 = .http 403 → g 2 = .ok v →
        fetchVideoStatistics g = (.ok v, [1000, 2000]))) ∧
    (∀ f' : Nat → FetchOutcome (List VideoResult), (∀ i, i < 3 → f i = f' i) →
        searchYouTubeAPI f = searchYouTubeAPI f') := by
  refine ⟨⟨?_, ?_⟩, ⟨?_, ?_⟩, ?_⟩
  · intro h0 h1 h2
    simp [searchYouTubeAPI, retryLoopAux, h0, h1, h2]
  · intro h0 h1 h2
    simp [fetchVideoStatistics, retryLoopAux, h0, h1, h2]
  · intro v h0 h1 h2
    simp [searchYouTubeAPI, retryLoopAux, h0, h1, h2]
  · intro v h0 h1 h2
    simp [fetchVideoStatistics, retryLoopAux, h0, h1, h2]
  · intro f' h
    have e0 := h 0 (by omega)
    have e1 := h 1 (by omega)
    have e2 := h 2 (by omega)
    simp only [searchYouTubeAPI, retryLoopAux, e0, e1, e2]

/-- C6 witness: the retry policy at two concrete attempt oracles. -/
theorem C6_witness :
    searchYouTubeAPI (fun _ => .http 429) =
      (.exhausted "Failed to search YouTube after retries".toList, [1000, 2000, 4000]) ∧
    searchYouTubeAPI
        (fun i => if i = 0 then .http 429 else if i = 1 then .http 403 else .ok []) =
      (.ok [], [1000, 2000]) := by
  constructor
  · exact (C6_retry_policy (fun _ => .http 429) (fun _ => .http 429)).1.1 rfl rfl rfl
  · exact (C6_retry_policy
      (fun i => if i = 0 then .http 429 else if i = 1 then .http 403 else .ok [])
      (fun _ => .http 429)).2.1.1 [] rfl rfl rfl

/-- C7 counterexample: `"echo dot"` and `"echo  dot"` differ only by
whitespace (removing all whitespace and case-folding makes them equal), yet
their cache keys differ — `getCacheKey` only lowercases and trims the ends,
it does not touch interior whitespace. -/
theorem C7_counterexample :
    lowerAll ("echo dot".toList.filter (fun c => !jsWs c)) =
      lowerAll ("echo  dot".toList.filter (fun c => !jsWs c)) ∧
    getCacheKey "echo dot".toList ≠ getCacheKey "echo  dot".toList := by
  constructor
  · decide
  · decide

/-- C7 (amended): the cache key is invariant under letter-case differences
and under leading/trailing whitespace, so a get after a put under such a
variant hits the same entry; interior whitespace differences produce
different keys. -/
theorem C7_amended (pre q suf q' : List Char)
    (hpre : ∀ c ∈ pre, jsWs c) (hsuf : ∀ c ∈ suf, jsWs c)
    (hcase : List.Forall₂ (fun a b => asciiLower a = asciiLower b) q q') :
    getCacheKey (pre ++ q ++ suf) = getCacheKey q' := by
  unfold getCacheKey
  congr 1
  have hmap : lowerAll q = lowerAll q' := by
    induction hcase with
    | nil => rfl
    | cons hab _ ih => simp only [lowerAll, List.map_cons] at ih ⊢; rw [hab]; rw [ih]
  calc jsTrim (lowerAll (pre ++ q ++ suf))
      = jsTrim (lowerAll pre ++ lowerAll q ++ lowerAll suf) := by
        rw [lowerAll_append, lowerAll_append]
    _ = jsTrim (lowerAll q) := by
        apply jsTrim_pad
        · intro c hc
          obtain ⟨x, hx, rfl⟩ := List.mem_map.mp hc
          rw [jsWs_asciiLower]
          exact hpre x hx
        · intro c hc
          obtain ⟨x, hx, rfl⟩ := List.mem_map.mp hc
          rw [jsWs_asciiLower]
          exact hsuf x hx
    _ = jsTrim (lowerAll q') := by rw [hmap]

/-- C7 witness: the amended claim at `" ECHO Dot "` versus `"echo dot"`. -/
theorem C7_witness :
    getCacheKey (" ".toList ++ "ECHO Dot".toList ++ " ".toList) =
      getCacheKey "echo dot".toList :=
  C7_amended " ".toList "ECHO Dot".toList " ".toList "echo dot".toList
    (by decide) (by decide) (by decide)

/-- C8: a cached entry is returned exactly when its age `now - fetchedAt` is
strictly below the TTL; an entry at least TTL old yields `none` and is
evicted from the store. -/
theorem C8_cache_ttl (store : CacheStore) (now : Int) (q : List Char) (ttl : Int)
    (e : CacheEntry) (h : store (getCacheKey q) = some e) :
    (now - e.fetchedAt < ttl →
       getCachedResults store now q ttl = (some e.results, store)) ∧
    (ttl ≤ now - e.fetchedAt →
       (getCachedResults store now q ttl).1 = none ∧
       (getCachedResults store now q ttl).2 (getCacheKey q) = none) := by
  constructor
  · intro hfresh
    simp [getCachedResults, h, hfresh]
  · intro hold
    have hnotlt : ¬ (now - e.fetchedAt < ttl) := not_lt.mpr hold
    constructor
    · simp [getCachedResults, h, hnotlt]
    · simp [getCachedResults, h, hnotlt]

/-- C8 witness: a concrete one-entry store, read fresh (TTL 10) and expired
(TTL 3) at `now = 5`. -/
theorem C8_witness :
    (getCachedResults
        (fun k => if k = getCacheKey "a".toList then some ⟨[], 0⟩ else none)
        5 "a".toList 10 =
      (some [], fun k => if k = getCacheKey "a".toList then some ⟨[], 0⟩ else none)) ∧
    ((getCachedResults
        (fun k => if k = getCacheKey "a".toList then some ⟨[], 0⟩ else none)
        5 "a".toList 3).1 = none ∧
     (getCachedResults
        (fun k => if k = getCacheKey "a".toList then some ⟨[], 0⟩ else none)
        5 "a".toList 3).2 (getCacheKey "a".toList) = none) := by
  constructor
  · exact (C8_cache_ttl _ 5 "a".toList 10 ⟨[], 0⟩ (by simp)).1 (by decide)
  · exact (C8_cache_ttl _ 5 "a".toList 3 ⟨[], 0⟩ (by simp)).2 (by decide)

/-- C9: `extractProductsWithLLM` returns the `products` array filtered to
confidence ≥ 0.5 and non-empty name; a legacy `{productName, confidence}`
response becomes the corresponding one-element array (through the same
filter); and it errors exactly when the response matches neither shape,
while zero surviving candidates is an `ok []`, not an error. -/
theorem C9_extract_shapes :
    (∀ ps pn c rt, extractProductsWithLLM ⟨some ps, pn, c, rt⟩ =
        .ok (ps.filter confidenceFilter)) ∧
    (extractProductsWithLLM ⟨none, some "X".toList, some ((9 : Rat)/10), none⟩ =
        .ok [⟨"X".toList, (9 : Rat)/10, none⟩]) ∧
    (∀ r : LLMResponse, (∃ m, extractProductsWithLLM r = .error m) ↔
        (r.products = none ∧
         ¬ ∃ pn c, r.productName = some pn ∧ pn ≠ [] ∧ r.confidence = some c)) ∧
    (extractProductsWithLLM ⟨some [⟨"Y".toList, (1 : Rat)/10, none⟩], none, none, none⟩ =
        .ok []) := by
  refine ⟨fun ps pn c rt => rfl,
    by norm_num [extractProductsWithLLM, confidenceFilter, List.filter], ?_,
    by norm_num [extractProductsWithLLM, confidenceFilter, List.filter]⟩
  rintro ⟨po, no, co, ro⟩
  cases po with
  | some ps => simp [extractProductsWithLLM]
  | none =>
    cases no with
    | none => simp [extractProductsWithLLM]
    | some pn =>
      cases co with
      | none => simp [extractProductsWithLLM]
      | some c =>
        by_cases hpn : pn = []
        · subst hpn
          simp [extractProductsWithLLM]
        · simp [extractProductsWithLLM, List.isEmpty_iff, hpn]

/-- C1 counterexample: with no user-supplied or stored key, an unreachable
backend, and a local search that would even find a video, the call for the
non-empty title `"x"` returns an empty result instead of raising the
configure-credentials error — the generated query list is empty, and the
function returns `[]` before the credentials check, without searching. -/
theorem C1_counterexample :
    searchYouTubeForProduct [] ⟨none, false⟩ .netError none
        (fun _ => .ok [⟨"v".toList, "t".toList, "c".toList, "u".toList, 1, none, "p".toList⟩])
        "x".toList none false = some (.ok []) := by
  rfl

/-- C1 (amended): with no key available (neither in memory, nor stored, nor
user-selected) and a backend call that did not return, the call raises the
descriptive configure-credentials error — provided the generated query list
is non-empty; when the query list is empty it instead returns an empty
result without searching. -/
theorem C1_amended (storage : ChromeStorage) (backend : BackendOutcome)
    (ai : Option (List Char))
    (search : List Char → Except (List Char) (List VideoResult))
    (title : List Char) (subtitle : Option (List Char)) (qs : List (List Char))
    (hkey : storage.youtubeApiKey = none)
    (hbackend : backendReturns backend = none)
    (hq : generateSearchQueries title subtitle = some qs)
    (hne : qs ≠ []) :
    searchYouTubeForProduct [] storage backend ai search title subtitle false =
      some (.error ERR_NO_BACKEND_NO_KEY) := by
  simp [searchYouTubeForProduct, hkey, hbackend, hq, hne, getApiKeyOrNull, truthyStr]

/-- C1 witness: the amended claim at the concrete title `"Echo Dot"` with an
empty storage and a network-failed backend. -/
theorem C1_witness :
    searchYouTubeForProduct [] ⟨none, false⟩ .netError none
        (fun _ => .error "down".toList) "Echo Dot".toList none false =
      some (.error ERR_NO_BACKEND_NO_KEY) :=
  C1_amended ⟨none, false⟩ .netError none (fun _ => .error "down".toList)
    "Echo Dot".toList none
    ["echo dot review".toList, "echo dot unboxing".toList, "echo dot hands on".toList]
    rfl rfl (by decide) (by decide)

theorem jsOrStr_product_ne (a : List Char) : jsOrStr a "product".toList ≠ [] := by
  unfold jsOrStr
  split
  · decide
  · next h =>
    intro hnil
    rw [hnil] at h
    exact h rfl

/-- C10: `normalizeYouTubeTextFallback` is total and never returns the empty
string: the final step returns the literal `"product"` whenever the (possibly
conservatively re-cleaned) candidate is empty. -/
theorem C10_fallback_nonempty (title : List Char) (description : Option (List Char)) :
    normalizeYouTubeTextFallback title description ≠ [] := by
  unfold normalizeYouTubeTextFallback
  exact jsOrStr_product_ne _

end ScoutFox
